import Mathlib

/-!
# Verification of the dkan-importer schema-driven coercion and validation engine

This file gives a shallow embedding, in Lean 4, of the core pure functions of the
dkan-importer repository:

* `normalize_string` (both variants: `src/utils.rs` and `importer-lib/src/utils/string.rs`),
* `convert_data_dictionary_to_json_schema` (`src/model/data_dictionary.rs`),
* `coerce_string_to_schema_type`, `smart_number_conversion`,
  `apply_intelligent_type_coercion`, `validate_excel` and `check_header_duplicates`
  (`importer-lib/src/excel_validator.rs`),

together with theorems settling the specification claims about them.

Modelling conventions:
* Rust `String`/`&str` values are modelled as `List Char` (`Str`); Unicode scalar
  values coincide with Lean `Char`.
* Rust `f64` values are modelled as exact rationals `ℚ`.  The source only compares,
  truncates and bound-checks floats; rounding of decimal literals and of `i64`→`f64`
  casts beyond 2^53 is not modelled.
* `serde_json::Value` is modelled by `JsonValue`; `serde_json::Number` keeps the
  i64-vs-f64 distinction via the `intg`/`flt` constructors (`u64` payloads do not
  occur in the embedded code paths).
* External collaborators (the `jsonschema` validator, `serde_json::from_str`, the
  error collector) are black boxes per the specification; they enter the embedding
  as explicit function parameters.
* File/log I/O (`write_error_to_log`) has no effect on any returned value and is
  omitted.
-/

namespace Importer

/-- Rust strings are processed character by character. -/
abbrev Str := List Char

/-- Model of Rust `char::is_control` (Unicode category Cc:
U+0000..U+001F and U+007F..U+009F). -/
def isControlChar (c : Char) : Bool :=
  decide (c.toNat ≤ 0x1f ∨ (0x7f ≤ c.toNat ∧ c.toNat ≤ 0x9f))

/-- Model of Rust `char::is_whitespace` (Unicode property White_Space). -/
def isWhitespaceChar (c : Char) : Bool :=
  decide ((0x09 ≤ c.toNat ∧ c.toNat ≤ 0x0d) ∨ c.toNat = 0x20 ∨ c.toNat = 0x85 ∨
    c.toNat = 0xa0 ∨ c.toNat = 0x1680 ∨ (0x2000 ≤ c.toNat ∧ c.toNat ≤ 0x200a) ∨
    c.toNat = 0x2028 ∨ c.toNat = 0x2029 ∨ c.toNat = 0x202f ∨ c.toNat = 0x205f ∨
    c.toNat = 0x3000)

/-- `value.chars().map(|c| if c.is_control() { ' ' } else { c })` -/
def mapControlToSpace (l : Str) : Str :=
  l.map fun c => if isControlChar c then ' ' else c

/-- Accumulator pass of `splitWhitespace`: collect the current word (reversed)
and emit it at each whitespace boundary. -/
def splitWhitespaceAux : Str → Str → List Str
  | [], acc => if acc.isEmpty then [] else [acc.reverse]
  | c :: cs, acc =>
    if isWhitespaceChar c then
      if acc.isEmpty then splitWhitespaceAux cs []
      else acc.reverse :: splitWhitespaceAux cs []
    else splitWhitespaceAux cs (c :: acc)

/-- Model of Rust `str::split_whitespace`: the maximal runs of
non-whitespace characters, in order. -/
def splitWhitespace (l : Str) : List Str := splitWhitespaceAux l []

/-- Model of `Vec::join(" ")` on the word list. -/
def joinWithSpace : List Str → Str
  | [] => []
  | [w] => w
  | w :: ws => w ++ ' ' :: joinWithSpace ws

/-- Model of `str::trim_start` (leading Unicode whitespace removed). -/
def trimStartWs (l : Str) : Str := l.dropWhile isWhitespaceChar

/-- Model of `str::trim_end` (trailing Unicode whitespace removed). -/
def trimEndWs (l : Str) : Str := (l.reverse.dropWhile isWhitespaceChar).reverse

/-- Model of Rust `str::trim`. -/
def trimWs (l : Str) : Str := trimEndWs (trimStartWs l)

/-- `normalize_string` from `src/utils.rs`: replace control characters by
spaces, split on whitespace, re-join with single spaces, trim. -/
def normalize_string_model (s : Str) : Str :=
  trimWs (joinWithSpace (splitWhitespace (mapControlToSpace s)))

/-- The loop of the `importer-lib` variant of `normalize_string`, operating on the
reversed normalized string: keep every leading `'*'`, skip `' '`, and stop at the
first other character, keeping the remainder untouched. -/
def dropSpacesAfterAsterisks : Str → Str
  | [] => []
  | c :: cs =>
    if c = '*' then c :: dropSpacesAfterAsterisks cs
    else if c = ' ' then dropSpacesAfterAsterisks cs
    else c :: cs

/-- `normalize_string` from `importer-lib/src/utils/string.rs`: the base
normalization followed by removal of spaces before trailing asterisks. -/
def normalize_string_lib (s : Str) : Str :=
  let normalized := normalize_string_model s
  let reversed := normalized.reverse
  if reversed.head? = some '*' then (dropSpacesAfterAsterisks reversed).reverse
  else normalized

/-- Decimal digits with an explicit fuel bound (`n` itself suffices, as the
argument shrinks by a factor of ten each step). -/
def natReprAux : Nat → Nat → Str
  | 0, _ => []
  | fuel + 1, n =>
    if n < 10 then [Char.ofNat (48 + n)]
    else natReprAux fuel (n / 10) ++ [Char.ofNat (48 + n % 10)]

/-- Decimal digits of a natural number (model of Rust's `Display` for unsigned
integers). -/
def natRepr (n : Nat) : Str := natReprAux (n + 1) n

/-- Decimal rendering of a signed integer (model of Rust's `Display` for `i64`). -/
def intRepr (i : Int) : Str :=
  if i < 0 then '-' :: natRepr i.natAbs else natRepr i.toNat

/-- Stand-in rendering for a float-backed number.  The embedded code paths never
inspect the text produced for a non-integral float, so the exact decimal rendering
of binary64 values is not modelled. -/
def fltRepr (q : ℚ) : Str :=
  intRepr q.num ++ '/' :: natRepr q.den

/-- Model of `serde_json::Value`.  Numbers keep the i64-vs-f64 distinction of
`serde_json::Number` through the `intg`/`flt` constructors. -/
inductive JsonValue where
  | null
  | bool (b : Bool)
  | intg (i : Int)
  | flt (q : ℚ)
  | str (s : Str)
  | arr (l : List JsonValue)
  | obj (m : List (Str × JsonValue))

/-- `Value::as_str` -/
def JsonValue.asStr : JsonValue → Option Str
  | .str s => some s
  | _ => none

/-- `Value::as_bool` -/
def JsonValue.asBool : JsonValue → Option Bool
  | .bool b => some b
  | _ => none

/-- `Value::as_u64` (a float-backed number is never an u64 in serde_json). -/
def JsonValue.asU64 : JsonValue → Option Nat
  | .intg i => if 0 ≤ i then some i.toNat else none
  | _ => none

/-- `Value::as_f64`. -/
def JsonValue.asF64 : JsonValue → Option ℚ
  | .intg i => some (i : ℚ)
  | .flt q => some q
  | _ => none

/-- `Value::is_string` -/
def JsonValue.isString : JsonValue → Bool
  | .str _ => true
  | _ => false

/-- `Value::is_array` -/
def JsonValue.isArrayV : JsonValue → Bool
  | .arr _ => true
  | _ => false

/-- `Value::is_object` -/
def JsonValue.isObjectV : JsonValue → Bool
  | .obj _ => true
  | _ => false

/-- `serde_json::Map::insert`: replace the value at an existing key in place,
otherwise append.  (The real map is a `BTreeMap`; only key-lookup facts are
used in the claims, so entry order is irrelevant and insertion order is kept.) -/
def mapInsert (m : List (Str × JsonValue)) (k : Str) (v : JsonValue) :
    List (Str × JsonValue) :=
  match m with
  | [] => [(k, v)]
  | (k', v') :: rest => if k' = k then (k, v) :: rest else (k', v') :: mapInsert rest k v

/-- `serde_json::Map::get`. -/
def mapGet (m : List (Str × JsonValue)) (k : Str) : Option JsonValue :=
  match m with
  | [] => none
  | (k', v') :: rest => if k' = k then some v' else mapGet rest k

/-- The `constraints` member of a dictionary field, holding the raw JSON values
produced by `constraints.get(...)` in the source. -/
structure ConstraintsDef where
  required : Option JsonValue := none
  minLength : Option JsonValue := none
  maxLength : Option JsonValue := none
  minimum : Option JsonValue := none
  maximum : Option JsonValue := none
  pattern : Option JsonValue := none
  enumValues : Option JsonValue := none

/-- One entry of the dictionary's `fields` array.  Each member holds the result
of the corresponding `field.get(..).and_then(|x| x.as_str())` access in the
source (`none` both for an absent key and for a non-string value). -/
structure FieldDef where
  name : Option Str := none
  title : Option Str := none
  ftype : Option Str := none
  format : Option Str := none
  description : Option Str := none
  constraints : Option ConstraintsDef := none

/-- The dictionary root `{title, fields}` as accessed by the converter. -/
structure DkanRoot where
  title : Option Str := none
  fields : Option (List FieldDef) := none

/-- The `match field_type` table mapping DKAN types to JSON Schema types. -/
def mapDkanTypeToJsonSchemaType (field_type : Str) : Str :=
  if field_type = "integer".toList then "integer".toList
  else if field_type = "number".toList ∨ field_type = "float".toList then "number".toList
  else if field_type = "boolean".toList then "boolean".toList
  else if field_type = "array".toList then "array".toList
  else if field_type = "object".toList then "object".toList
  else if field_type = "datetime".toList then "string".toList
  else "string".toList

/-- `name_indicates_required`: the field name, with trailing whitespace trimmed,
ends with `'*'`. -/
def nameIndicatesRequired (field_name : Str) : Bool :=
  (trimEndWs field_name).getLast? = some '*'

/-- `title_indicates_required`. -/
def titleIndicatesRequired (field_title : Option Str) : Bool :=
  match field_title with
  | some title => (trimEndWs title).getLast? = some '*'
  | none => false

/-- `will_be_required`: the asterisk indication, OR-combined with the explicit
`constraints.required` flag when present (`as_bool().unwrap_or(false)`). -/
def willBeRequired (field : FieldDef) (field_name : Str) : Bool :=
  let asterisk_indicates_required :=
    nameIndicatesRequired field_name || titleIndicatesRequired field.title
  match field.constraints with
  | some constraints =>
    match constraints.required with
    | some required => asterisk_indicates_required || required.asBool.getD false
    | none => asterisk_indicates_required
  | none => asterisk_indicates_required

/-- The `type` insert: a `[scalar, "null"]` union for non-required fields of
non-array/object type, the bare scalar otherwise. -/
def propertyInsertType (property : List (Str × JsonValue)) (will_be_required : Bool)
    (json_schema_type : Str) : List (Str × JsonValue) :=
  if !will_be_required &&
      !(decide (json_schema_type = "array".toList) ||
        decide (json_schema_type = "object".toList)) then
    mapInsert property "type".toList
      (.arr [.str json_schema_type, .str "null".toList])
  else
    mapInsert property "type".toList (.str json_schema_type)

/-- The `title` insert. -/
def propertyAddTitle (property : List (Str × JsonValue)) (field_title : Option Str) :
    List (Str × JsonValue) :=
  match field_title with
  | some title => mapInsert property "title".toList (.str title)
  | none => property

/-- The `description` insert. -/
def propertyAddDescription (property : List (Str × JsonValue))
    (field_description : Option Str) : List (Str × JsonValue) :=
  match field_description with
  | some description => mapInsert property "description".toList (.str description)
  | none => property

/-- The `format` handling: special-cased for `datetime` (verbatim format plus
the `dkan_format` side channel unless absent, `"default"` or empty, in which
case `"date-time"`), plain verbatim copy otherwise. -/
def propertyAddFormat (property : List (Str × JsonValue)) (field_type : Str)
    (field_format : Option Str) : List (Str × JsonValue) :=
  if field_type = "datetime".toList then
    match field_format with
    | some format =>
      if !decide (format = "default".toList) && !format.isEmpty then
        mapInsert (mapInsert property "format".toList (.str format))
          "dkan_format".toList (.str format)
      else
        mapInsert property "format".toList (.str "date-time".toList)
    | none => mapInsert property "format".toList (.str "date-time".toList)
  else
    match field_format with
    | some format =>
      if !decide (format = "default".toList) && !format.isEmpty then
        mapInsert property "format".toList (.str format)
      else property
    | none => property

/-- The `minLength` constraint copy. -/
def propertyAddMinLength (property : List (Str × JsonValue)) (c : ConstraintsDef) :
    List (Str × JsonValue) :=
  match c.minLength with
  | some v =>
    match v.asU64 with
    | some min_len => mapInsert property "minLength".toList (.intg min_len)
    | none => property
  | none => property

/-- The `maxLength` constraint copy. -/
def propertyAddMaxLength (property : List (Str × JsonValue)) (c : ConstraintsDef) :
    List (Str × JsonValue) :=
  match c.maxLength with
  | some v =>
    match v.asU64 with
    | some max_len => mapInsert property "maxLength".toList (.intg max_len)
    | none => property
  | none => property

/-- The `minimum` constraint copy. -/
def propertyAddMinimum (property : List (Str × JsonValue)) (c : ConstraintsDef) :
    List (Str × JsonValue) :=
  match c.minimum with
  | some v =>
    match v.asF64 with
    | some min => mapInsert property "minimum".toList (.flt min)
    | none => property
  | none => property

/-- The `maximum` constraint copy. -/
def propertyAddMaximum (property : List (Str × JsonValue)) (c : ConstraintsDef) :
    List (Str × JsonValue) :=
  match c.maximum with
  | some v =>
    match v.asF64 with
    | some max => mapInsert property "maximum".toList (.flt max)
    | none => property
  | none => property

/-- The `pattern` constraint copy. -/
def propertyAddPattern (property : List (Str × JsonValue)) (c : ConstraintsDef) :
    List (Str × JsonValue) :=
  match c.pattern with
  | some v =>
    match v.asStr with
    | some pat => mapInsert property "pattern".toList (.str pat)
    | none => property
  | none => property

/-- The `enum` constraint copy (inserted verbatim, without a type guard). -/
def propertyAddEnum (property : List (Str × JsonValue)) (c : ConstraintsDef) :
    List (Str × JsonValue) :=
  match c.enumValues with
  | some enum_values => mapInsert property "enum".toList enum_values
  | none => property

/-- The whole `if let Some(constraints)` block of additional-constraint copies. -/
def propertyAddConstraints (property : List (Str × JsonValue))
    (constraints : Option ConstraintsDef) : List (Str × JsonValue) :=
  match constraints with
  | none => property
  | some c =>
    propertyAddEnum
      (propertyAddPattern
        (propertyAddMaximum
          (propertyAddMinimum
            (propertyAddMaxLength (propertyAddMinLength property c) c) c) c) c) c

/-- The body of the per-field loop of `convert_data_dictionary_to_json_schema`
(`src/model/data_dictionary.rs`): produce the property key, the property schema
object and the required flag for one field. -/
def convertField (field : FieldDef) : Except Str (Str × JsonValue × Bool) :=
  match field.name with
  | none => .error "Field name not found".toList
  | some field_name =>
    let field_type := field.ftype.getD "string".toList
    let json_schema_type := mapDkanTypeToJsonSchemaType field_type
    let will_be_required := willBeRequired field field_name
    let property := propertyInsertType [] will_be_required json_schema_type
    let property := propertyAddTitle property field.title
    let property := propertyAddDescription property field.description
    let property := propertyAddFormat property field_type field.format
    let property := propertyAddConstraints property field.constraints
    .ok (field_name, .obj property, will_be_required)

/-- The per-field loop of the converter: thread the `properties` map and the
`required_fields` vector through the fields in order. -/
def convertFields : List FieldDef → List (Str × JsonValue) → List Str →
    Except Str (List (Str × JsonValue) × List Str)
  | [], properties, required_fields => .ok (properties, required_fields)
  | field :: rest, properties, required_fields =>
    match convertField field with
    | .error e => .error e
    | .ok (field_name, property, will_be_required) =>
      convertFields rest (mapInsert properties field_name property)
        (if will_be_required then required_fields ++ [field_name] else required_fields)

/-- `DataDictionary::convert_data_dictionary_to_json_schema`
(`src/model/data_dictionary.rs`). -/
def convert_data_dictionary_to_json_schema (dkan_fields : DkanRoot) :
    Except Str JsonValue :=
  let title := dkan_fields.title.getD "Untitled Schema".toList
  match dkan_fields.fields with
  | none => .error "Fields array not found in schema".toList
  | some fields =>
    match convertFields fields [] [] with
    | .error e => .error e
    | .ok (properties, required_fields) =>
      let json_schema := mapInsert [] "$schema".toList
        (.str "http://json-schema.org/draft-07/schema#".toList)
      let json_schema := mapInsert json_schema "type".toList (.str "object".toList)
      let json_schema := mapInsert json_schema "title".toList (.str title)
      let json_schema := mapInsert json_schema "properties".toList (.obj properties)
      let json_schema :=
        if !required_fields.isEmpty then
          mapInsert json_schema "required".toList (.arr (required_fields.map .str))
        else json_schema
      let json_schema := mapInsert json_schema "additionalProperties".toList (.bool false)
      .ok (.obj json_schema)

/-- The `properties` map of a produced schema. -/
def schemaProperties (r : Except Str JsonValue) : List (Str × JsonValue) :=
  match r with
  | .ok (.obj m) =>
    match mapGet m "properties".toList with
    | some (.obj p) => p
    | _ => []
  | _ => []

/-- The `required` list of a produced schema (empty when the key is absent). -/
def schemaRequired (r : Except Str JsonValue) : List Str :=
  match r with
  | .ok (.obj m) =>
    match mapGet m "required".toList with
    | some (.arr l) => l.filterMap JsonValue.asStr
    | _ => []
  | _ => []

/-- The property object produced by `convertField` (the `.2.1` component),
defaulting to an empty object on error. -/
def fieldProperty (field : FieldDef) : List (Str × JsonValue) :=
  match convertField field with
  | .ok (_, .obj p, _) => p
  | _ => []

/-- The required flag produced by `convertField`, defaulting to `false` on error. -/
def fieldRequiredFlag (field : FieldDef) : Bool :=
  match convertField field with
  | .ok (_, _, r) => r
  | _ => false

/-- ASCII digit test. -/
def isAsciiDigit (c : Char) : Bool := decide ('0' ≤ c ∧ c ≤ '9')

/-- Decimal value of a digit string (most significant first). -/
def digitsToNat (l : Str) : Nat := l.foldl (fun a c => a * 10 + (c.toNat - 48)) 0

/-- A non-empty all-digit string parsed to its value, otherwise `none`. -/
def parseDigitsAll (l : Str) : Option Nat :=
  if !l.isEmpty && l.all isAsciiDigit then some (digitsToNat l) else none

/-- The optional leading sign of a numeric literal, and the remainder. -/
def splitSign : Str → Int × Str
  | '+' :: r => (1, r)
  | '-' :: r => (-1, r)
  | r => (1, r)

/-- An optionally signed non-empty digit string parsed to an integer. -/
def parseSignedDigits (l : Str) : Option Int :=
  (parseDigitsAll (splitSign l).2).map fun n => (splitSign l).1 * n

/-- Model of Rust `str::parse::<i64>()`: optional sign, decimal digits, and an
in-range check (out-of-range input is a parse error). -/
def parseI64 (s : Str) : Option Int :=
  match parseSignedDigits s with
  | some v => if -(2 ^ 63 : Int) ≤ v ∧ v ≤ 2 ^ 63 - 1 then some v else none
  | none => none

/-- Exponent suffix of a float literal: `e`/`E`, optional sign, digits. -/
def applyExponent (r : Str) (m : ℚ) : Option ℚ :=
  match r with
  | [] => some m
  | 'e' :: t => (parseSignedDigits t).map fun e => m * (10 : ℚ) ^ (e : ℤ)
  | 'E' :: t => (parseSignedDigits t).map fun e => m * (10 : ℚ) ^ (e : ℤ)
  | _ => none

/-- Model of Rust `str::parse::<f64>()` restricted to finite decimal literals
(optional sign, digits with optional fractional part, optional exponent).  The
value is kept as an exact rational; `inf`/`NaN` literals are not modelled since
no settled claim involves a non-finite parse. -/
def parseF64 (s : Str) : Option ℚ :=
  let sign : ℚ := ((splitSign s).1 : ℚ)
  let rest := (splitSign s).2
  let ip := rest.takeWhile isAsciiDigit
  let r1 := rest.dropWhile isAsciiDigit
  match r1 with
  | '.' :: r2 =>
    let fp := r2.takeWhile isAsciiDigit
    let r3 := r2.dropWhile isAsciiDigit
    if ip.isEmpty && fp.isEmpty then none
    else applyExponent r3
      (sign * ((digitsToNat ip : ℚ) + (digitsToNat fp : ℚ) / (10 : ℚ) ^ fp.length))
  | _ =>
    if ip.isEmpty then none
    else applyExponent r1 (sign * (digitsToNat ip : ℚ))

/-- `f64::EPSILON` = 2^-52. -/
def epsilonF64 : ℚ := 1 / 2 ^ 52

/-- Truncation toward zero (`f64::trunc`, and the integral part used by
`f64::fract`). -/
def ratTrunc (q : ℚ) : Int := if 0 ≤ q then ⌊q⌋ else ⌈q⌉

/-- `f64::fract`: the fractional part, with the sign of the input. -/
def ratFract (q : ℚ) : ℚ := q - ratTrunc q

/-- The saturating `as i64` cast applied to a finite float. -/
def f64ToI64Sat (q : ℚ) : Int :=
  let t := ratTrunc q
  if t < -(2 ^ 63 : Int) then -(2 ^ 63) else if t > 2 ^ 63 - 1 then 2 ^ 63 - 1 else t

/-- Model of `str::to_lowercase` on the ASCII range (all literal sets compared
against in the source are ASCII). -/
def toLowerAscii (l : Str) : Str :=
  l.map fun c => if decide ('A' ≤ c ∧ c ≤ 'Z') then Char.ofNat (c.toNat + 32) else c

/-- `SchemaType` from `importer-lib/src/excel_validator.rs`. -/
inductive SchemaType where
  | string
  | integer
  | number
  | boolean
  | array (item : SchemaType)
  | object
  | null
  | mixed (types : List SchemaType)

/-- `types.contains(&SchemaType::Integer)` -/
def containsIntegerT (ts : List SchemaType) : Bool :=
  ts.any fun t => match t with | .integer => true | _ => false

/-- `types.contains(&SchemaType::Number)` -/
def containsNumberT (ts : List SchemaType) : Bool :=
  ts.any fun t => match t with | .number => true | _ => false

/-- `types.contains(&SchemaType::Boolean)` -/
def containsBooleanT (ts : List SchemaType) : Bool :=
  ts.any fun t => match t with | .boolean => true | _ => false

/-- `types.contains(&SchemaType::String)` -/
def containsStringT (ts : List SchemaType) : Bool :=
  ts.any fun t => match t with | .string => true | _ => false

/-- `types.contains(&SchemaType::Null)` -/
def containsNullT (ts : List SchemaType) : Bool :=
  ts.any fun t => match t with | .null => true | _ => false

/-- `preferred_order.contains(schema_type)`: membership in the fixed list
`[Integer, Number, Boolean, String]`. -/
def isPreferredScalar : SchemaType → Bool
  | .integer | .number | .boolean | .string => true
  | _ => false

/-- `FieldSchema` from `importer-lib/src/excel_validator.rs`. -/
structure FieldSchema where
  fieldType : SchemaType
  format : Option Str := none
  pattern : Option Str := none
  enumValues : Option (List JsonValue) := none
  minimum : Option ℚ := none
  maximum : Option ℚ := none
  minLength : Option Nat := none
  maxLength : Option Nat := none

/-- The `SchemaType::Integer` arm of `coerce_string_to_schema_type`. -/
def coerceIntegerStr (s : Str) (minimum maximum : Option ℚ) : JsonValue :=
  let floatPath : JsonValue :=
    match parseF64 s with
    | some float_val =>
      if |ratFract float_val| < epsilonF64 then
        let int_val := f64ToI64Sat float_val
        match minimum, maximum with
        | some min, some max =>
          if min ≤ float_val ∧ float_val ≤ max then .intg int_val else .str s
        | _, _ => .intg int_val
      else .str s
    | none => .str s
  match parseI64 s with
  | some int_val =>
    match minimum, maximum with
    | some min, some max =>
      -- `int_val as f64` is exact in the rational model
      if min ≤ (int_val : ℚ) ∧ (int_val : ℚ) ≤ max then .intg int_val else floatPath
    | _, _ => .intg int_val
  | none => floatPath

/-- `smart_number_conversion`: prefer an i64 parse, else narrow an
integral float to i64 (the range bounds are the exact doubles `-(2^63)` and
`2^63` produced by casting `i64::MIN`/`i64::MAX` to `f64`). -/
def smart_number_conversion (s : Str) : Option JsonValue :=
  match parseI64 s with
  | some int_val => some (.intg int_val)
  | none =>
    match parseF64 s with
    | some float_val =>
      if |ratFract float_val| < epsilonF64 ∧ -(2 ^ 63 : ℚ) ≤ float_val ∧
          float_val ≤ (2 ^ 63 : ℚ) then
        some (.intg (f64ToI64Sat float_val))
      else some (.flt float_val)
    | none => none

/-- The `SchemaType::Number` arm of `coerce_string_to_schema_type`. -/
def coerceNumberStr (s : Str) (minimum maximum : Option ℚ) : JsonValue :=
  match smart_number_conversion s with
  | some num_val =>
    match minimum, maximum with
    | some min, some max =>
      match num_val.asF64 with
      | some num_f64 => if min ≤ num_f64 ∧ num_f64 ≤ max then num_val else .str s
      | none => .str s
    | _, _ => num_val
  | none => .str s

/-- The `SchemaType::Boolean` arm of `coerce_string_to_schema_type`. -/
def coerceBooleanStr (s : Str) : JsonValue :=
  let ls := toLowerAscii s
  if ls = "true".toList ∨ ls = "yes".toList ∨ ls = "y".toList ∨ ls = "1".toList ∨
      ls = "on".toList ∨ ls = "enabled".toList ∨ ls = "active".toList then
    .bool true
  else if ls = "false".toList ∨ ls = "no".toList ∨ ls = "n".toList ∨
      ls = "0".toList ∨ ls = "off".toList ∨ ls = "disabled".toList ∨
      ls = "inactive".toList then
    .bool false
  else .str s

/-- `looks_like_date`: ten-byte strings with separators at positions 4/7 or 2/5
and at least eight ASCII digits. -/
def looks_like_date (s : Str) : Bool :=
  let byteLen := (s.map Char.utf8Size).sum
  ((decide (byteLen = 10) && s[4]? = some '-' && s[7]? = some '-') ||
   (decide (byteLen = 10) && s[2]? = some '/' && s[5]? = some '/') ||
   (decide (byteLen = 10) && s[2]? = some '-' && s[5]? = some '-') ||
   (decide (byteLen = 10) && s[4]? = some '/' && s[7]? = some '/') ||
   (decide (byteLen = 10) && s[2]? = some '-' && s[5]? = some '-')) &&
  decide (8 ≤ (s.filter isAsciiDigit).length)

/-- `parse_date_string` — "simplified for now" in the source: the identity. -/
def parse_date_string (s : Str) : Except Str Str := .ok s

/-- `parse_datetime_string` — "simplified for now" in the source: the identity. -/
def parse_datetime_string (s : Str) : Except Str Str := .ok s

/-- `parse_time_string` — "simplified for now" in the source: the identity. -/
def parse_time_string (s : Str) : Except Str Str := .ok s

/-- `convert_string_by_format`. -/
def convert_string_by_format (s : Str) (format : Str) : JsonValue :=
  if format = "date".toList then
    if looks_like_date s then
      match parse_date_string s with
      | .ok parsed_date => .str parsed_date
      | .error _ => .str s
    else .str s
  else if format = "date-time".toList then
    if s.contains 'T' || s.contains ' ' then
      match parse_datetime_string s with
      | .ok parsed_datetime => .str parsed_datetime
      | .error _ => .str s
    else .str s
  else if format = "time".toList then
    if s.contains ':' then
      match parse_time_string s with
      | .ok parsed_time => .str parsed_time
      | .error _ => .str s
    else .str s
  else if format = "email".toList then
    let normalized := toLowerAscii (trimWs s)
    if normalized.contains '@' && normalized.contains '.' then .str normalized
    else .str s
  else if format = "uri".toList ∨ format = "url".toList then
    if "http://".toList.isPrefixOf s || "https://".toList.isPrefixOf s ||
        "ftp://".toList.isPrefixOf s then
      .str s
    else .str s
  else .str s

/-- The case-insensitive enum-matching loop of the `SchemaType::String` arm:
the first enum entry whose lowercased text equals the lowercased input. -/
def enumCaseInsensitiveFind : List JsonValue → Str → Option Str
  | [], _ => none
  | v :: rest, lower_s =>
    match v.asStr with
    | some enum_str =>
      if toLowerAscii enum_str = lower_s then some enum_str
      else enumCaseInsensitiveFind rest lower_s
    | none => enumCaseInsensitiveFind rest lower_s

/-- The `SchemaType::String` arm of `coerce_string_to_schema_type`. -/
def coerceStringStr (s : Str) (enum_values : Option (List JsonValue))
    (format pattern : Option Str) : JsonValue :=
  let fallthrough : JsonValue :=
    match format with
    | some f => convert_string_by_format s f
    | none =>
      match pattern with
      | some _ => .str s
      | none => .str s
  match enum_values with
  | some enum_vals =>
    if enum_vals.any (fun v => match v with | .str t => t = s | _ => false) then .str s
    else
      match enumCaseInsensitiveFind enum_vals (toLowerAscii s) with
      | some enum_str => .str enum_str
      | none => fallthrough
  | none => fallthrough

/-- `'\x7b'` and `'\x7d'`, the object braces. -/
def lbraceChar : Char := Char.ofNat 123

/-- See `lbraceChar`. -/
def rbraceChar : Char := Char.ofNat 125

/-- The `SchemaType::Array(_)` arm of `coerce_string_to_schema_type`; `jp` is the
black-box `serde_json::from_str`. -/
def coerceArrayStr (jp : Str → Option JsonValue) (s : Str) : JsonValue :=
  let delims : JsonValue :=
    if s.contains ',' then .arr ((s.splitOn ',').map fun item => .str (trimWs item))
    else if s.contains ';' then .arr ((s.splitOn ';').map fun item => .str (trimWs item))
    else if s.contains '|' then .arr ((s.splitOn '|').map fun item => .str (trimWs item))
    else if s.contains '\t' then .arr ((s.splitOn '\t').map fun item => .str (trimWs item))
    else .str s
  if s.head? = some '[' ∧ s.getLast? = some ']' then
    match jp s with
    | some arr_val => if arr_val.isArrayV then arr_val else delims
    | none => delims
  else delims

/-- The `SchemaType::Object` arm of `coerce_string_to_schema_type`. -/
def coerceObjectStr (jp : Str → Option JsonValue) (s : Str) : JsonValue :=
  if s.head? = some lbraceChar ∧ s.getLast? = some rbraceChar then
    match jp s with
    | some obj_val => if obj_val.isObjectV then obj_val else .str s
    | none => .str s
  else .str s

/-- The `SchemaType::Null` arm of `coerce_string_to_schema_type`. -/
def coerceNullStr (s : Str) : JsonValue :=
  let ls := toLowerAscii s
  if ls = "null".toList ∨ ls = "nil".toList ∨ ls = "none".toList ∨ ls = [] then .null
  else .str s

mutual

/-- `ExcelValidator::coerce_string_to_schema_type`
(`importer-lib/src/excel_validator.rs`).  The recursive calls on the scalar
`test_schema`s of the Mixed arm dispatch immediately to the scalar arms and are
written as such. -/
def coerce_string_to_schema_type (jp : Str → Option JsonValue) (s : Str)
    (field_schema : FieldSchema) : JsonValue :=
  match hft : field_schema.fieldType with
  | .integer => coerceIntegerStr s field_schema.minimum field_schema.maximum
  | .number => coerceNumberStr s field_schema.minimum field_schema.maximum
  | .boolean => coerceBooleanStr s
  | .string =>
    coerceStringStr s field_schema.enumValues field_schema.format field_schema.pattern
  | .array _ => coerceArrayStr jp s
  | .object => coerceObjectStr jp s
  | .null => coerceNullStr s
  | .mixed types =>
    -- preferred order: Integer, Number, Boolean, String; each tried only when
    -- present in the union, with an early return on acceptance
    if containsIntegerT types &&
        !(coerceIntegerStr s field_schema.minimum field_schema.maximum).isString then
      coerceIntegerStr s field_schema.minimum field_schema.maximum
    else if containsNumberT types &&
        !(coerceNumberStr s field_schema.minimum field_schema.maximum).isString then
      coerceNumberStr s field_schema.minimum field_schema.maximum
    else if containsBooleanT types && !(coerceBooleanStr s).isString then
      coerceBooleanStr s
    else if containsStringT types &&
        (coerceStringStr s field_schema.enumValues field_schema.format
          field_schema.pattern).isString then
      coerceStringStr s field_schema.enumValues field_schema.format field_schema.pattern
    else tryRemainingTypes jp s field_schema types
termination_by sizeOf field_schema.fieldType
decreasing_by
  all_goals rw [hft]
  all_goals simp
  all_goals omega

/-- The fallback loop of the Mixed arm: try the remaining (non-preferred)
declared types in order, accepting the first converted value that is not the
unchanged input string. -/
def tryRemainingTypes (jp : Str → Option JsonValue) (s : Str)
    (field_schema : FieldSchema) : List SchemaType → JsonValue
  | [] => .str s
  | schema_type :: rest =>
    if !isPreferredScalar schema_type then
      let converted :=
        coerce_string_to_schema_type jp s { field_schema with fieldType := schema_type }
      if !converted.isString || !(converted.asStr == some s) then converted
      else tryRemainingTypes jp s field_schema rest
    else tryRemainingTypes jp s field_schema rest
termination_by ts => sizeOf ts
decreasing_by
  all_goals simp
  all_goals omega

end

/-- The fixed preference order of the Mixed arm. -/
def preferredOrderList : List SchemaType :=
  [.integer, .number, .boolean, .string]

/-- Whether the union `types` contains the given preferred scalar type. -/
def typesContainScalar (types : List SchemaType) : SchemaType → Bool
  | .integer => containsIntegerT types
  | .number => containsNumberT types
  | .boolean => containsBooleanT types
  | .string => containsStringT types
  | _ => false

/-- The scalar coercion selected by a preferred type. -/
def coerceByPreferredScalar (s : Str) (field_schema : FieldSchema) :
    SchemaType → JsonValue
  | .integer => coerceIntegerStr s field_schema.minimum field_schema.maximum
  | .number => coerceNumberStr s field_schema.minimum field_schema.maximum
  | .boolean => coerceBooleanStr s
  | .string =>
    coerceStringStr s field_schema.enumValues field_schema.format field_schema.pattern
  | _ => .str s

/-- Acceptance rule of the preferred pass, as worded by the specification: a
String result is accepted when it is a string, any other type's result when it
is no longer a string. -/
def preferredAccepts : SchemaType → JsonValue → Bool
  | .string, v => v.isString
  | _, v => !v.isString

/-- Modelled from the specification's wording of the Mixed(types) coercion rule
(the claim-side function of the refinement comparison): try the preferred
scalar types restricted to those present in the union, in order, with the
preferred acceptance rule; then the remaining declared types in their original
order, accepting the first result that differs from the unmodified input
string; else the original string. -/
def mixedCoercionSpec (jp : Str → Option JsonValue) (s : Str)
    (field_schema : FieldSchema) (types : List SchemaType) : JsonValue :=
  let firstPreferred :=
    (preferredOrderList.filter (typesContainScalar types)).findSome? fun t =>
      let c := coerceByPreferredScalar s field_schema t
      if preferredAccepts t c then some c else none
  match firstPreferred with
  | some v => v
  | none =>
    let remaining := types.filter fun t => !isPreferredScalar t
    match remaining.findSome? (fun t =>
        let c := coerce_string_to_schema_type jp s { field_schema with fieldType := t }
        if decide (c.asStr ≠ some s) then some c else none) with
    | some v => v
    | none => .str s

/-- `schema_expects_string`: a String type, or a union containing String. -/
def schema_expects_string (field_schema : FieldSchema) : Bool :=
  match field_schema.fieldType with
  | .string => true
  | .mixed types => containsStringT types
  | _ => false

/-- `HashMap::get` over the field-schema table (keys are distinct, so the
first-match association-list lookup is an exact model). -/
def lookupFieldSchema : List (Str × FieldSchema) → Str → Option FieldSchema
  | [], _ => none
  | (k, fs) :: rest, key => if k = key then some fs else lookupFieldSchema rest key

/-- `ExcelValidator::apply_intelligent_type_coercion`: one pass over the row
object; string values with a known field schema are re-coerced, and numeric or
boolean values whose schema expects a string are stringified.  (The source
assigns the coerced value only when it differs, which is the same assignment.) -/
def apply_intelligent_type_coercion (jp : Str → Option JsonValue)
    (field_schemas : List (Str × FieldSchema)) (row_value : JsonValue) : JsonValue :=
  match row_value with
  | .obj obj =>
    .obj (obj.map fun fv =>
      match lookupFieldSchema field_schemas fv.1 with
      | none => fv
      | some field_schema =>
        match fv.2 with
        | .str string_val =>
          (fv.1, coerce_string_to_schema_type jp string_val field_schema)
        | .intg i =>
          if schema_expects_string field_schema then (fv.1, .str (intRepr i)) else fv
        | .flt q =>
          if schema_expects_string field_schema then (fv.1, .str (fltRepr q)) else fv
        | .bool b =>
          if schema_expects_string field_schema then
            (fv.1, .str (if b then "true".toList else "false".toList))
          else fv
        | _ => fv)
  | v => v

/-- One accumulated validation report (`ValidationReport`); the error list is
produced by the black-box error collector. -/
structure ValidationReportM (E : Type) where
  rowNumber : Nat
  errors : List E
  rowData : JsonValue

/-- The per-row loop of `validate_excel`, accumulating reports in row order. -/
def validateRowsLoop {E : Type} (isValid : JsonValue → Bool)
    (collectErrors : JsonValue → Nat → List E) (jp : Str → Option JsonValue)
    (field_schemas : List (Str × FieldSchema)) :
    List (Nat × List (Str × JsonValue)) → List (ValidationReportM E) →
      List (ValidationReportM E)
  | [], reports => reports
  | (row_number, json_obj) :: rest, reports =>
    let row_value := JsonValue.obj json_obj
    let row_value :=
      if !isValid row_value then
        apply_intelligent_type_coercion jp field_schemas row_value
      else row_value
    if isValid row_value then
      validateRowsLoop isValid collectErrors jp field_schemas rest reports
    else
      validateRowsLoop isValid collectErrors jp field_schemas rest
        (reports ++ [⟨row_number, collectErrors row_value row_number, row_value⟩])

/-- `ExcelValidator::validate_excel` (`importer-lib/src/excel_validator.rs`):
fail on an empty sheet, otherwise validate every cached row, applying one
corrective coercion pass to invalid rows before re-validation, and return
success with the accumulated reports.  `isValid` models the black-box
`jsonschema` validator and `collectErrors` the error collection; the log write
is I/O and is omitted. -/
def validate_excel {E : Type} (isValid : JsonValue → Bool)
    (collectErrors : JsonValue → Nat → List E) (jp : Str → Option JsonValue)
    (field_schemas : List (Str × FieldSchema))
    (rows : List (Nat × List (Str × JsonValue))) :
    Except Str (List (ValidationReportM E)) :=
  if rows.length = 0 then .error "The Excel file is empty".toList
  else .ok (validateRowsLoop isValid collectErrors jp field_schemas rows [])

/-- `Vec::join(sep)`. -/
def joinWith (sep : Str) : List Str → Str
  | [] => []
  | [w] => w
  | w :: ws => w ++ sep ++ joinWith sep ws

/-- The positions pushed for one normalized header value: the indices of its
occurrences, in ascending order. -/
def headerPositions (normed : List Str) (k : Str) : List Nat :=
  (normed.enum.filter fun p => decide (p.2 = k)).map Prod.fst

/-- `ExcelValidator::check_header_duplicates`: group the normalized headers,
fail when any group has more than one occurrence, reporting each duplicated
header with the 1-based column position of every occurrence.  (The source
groups in a `HashMap` whose iteration order is unspecified; the model fixes one
admissible enumeration order of the distinct normalized values, via
`List.dedup`.) -/
def check_header_duplicates (headers : List Str) : Except Str Unit :=
  let normed := headers.map normalize_string_lib
  let header_positions := normed.dedup.map fun k => (k, headerPositions normed k)
  let duplicate_headers :=
    (header_positions.filter fun g => decide (1 < g.2.length)).map fun g =>
      "Header '".toList ++ g.1 ++ "' appears in: ".toList ++
        joinWith ", ".toList (g.2.map fun p => "column ".toList ++ natRepr (p + 1))
  if duplicate_headers.isEmpty then .ok ()
  else
    .error ("Excel file contains duplicate column headers:\n".toList ++
      joinWith "\n".toList (duplicate_headers.map fun msg => "  • ".toList ++ msg) ++
      "\nPlease ensure all column headers are unique.".toList)

/-- The message of an error result (empty on success); lets closed statements name
the message produced by a concrete run. -/
def exceptErrorMsg (r : Except Str Unit) : Str :=
  match r with
  | .error e => e
  | .ok _ => []

/-- No two consecutive spaces. -/
def noDoubleSpace : Str → Bool
  | [] => true
  | [_] => true
  | a :: b :: rest => !(decide (a = ' ') && decide (b = ' ')) && noDoubleSpace (b :: rest)

/-- Normal form of the base normalization: no control characters, every
whitespace character is a plain space, no leading/trailing space, and no two
consecutive spaces. -/
def isNormalizedStr (l : Str) : Bool :=
  l.all (fun c => !isControlChar c && (!isWhitespaceChar c || decide (c = ' '))) &&
  !(l.head? == some ' ') && !(l.getLast? == some ' ') && noDoubleSpace l

/-! ## Map lemmas -/

theorem mapGet_mapInsert_self (m : List (Str × JsonValue)) (k : Str) (v : JsonValue) :
    mapGet (mapInsert m k v) k = some v := by
  induction m with
  | nil => simp [mapInsert, mapGet]
  | cons p rest ih =>
    obtain ⟨k', v'⟩ := p
    by_cases h : k' = k <;> simp [mapInsert, mapGet, h, ih]

theorem mapGet_mapInsert_ne (m : List (Str × JsonValue)) {k k' : Str}
    (v : JsonValue) (h : k' ≠ k) : mapGet (mapInsert m k' v) k = mapGet m k := by
  induction m with
  | nil => simp [mapInsert, mapGet, h]
  | cons p rest ih =>
    obtain ⟨k'', v''⟩ := p
    by_cases h2 : k'' = k' <;> by_cases h3 : k'' = k <;>
      simp_all [mapInsert, mapGet]

theorem mapInsert_eq_append (m : List (Str × JsonValue)) {k : Str} (v : JsonValue)
    (h : k ∉ m.map Prod.fst) : mapInsert m k v = m ++ [(k, v)] := by
  induction m with
  | nil => simp [mapInsert]
  | cons p rest ih =>
    obtain ⟨k', v'⟩ := p
    simp only [List.map_cons, List.mem_cons] at h
    push_neg at h
    simp [mapInsert, Ne.symm h.1, ih h.2]

/-! ## Property-stage lookup lemmas -/

theorem mapGet_propertyAddTitle (p : List (Str × JsonValue)) (t : Option Str)
    {k : Str} (h : k ≠ "title".toList) : mapGet (propertyAddTitle p t) k = mapGet p k := by
  cases t with
  | none => rfl
  | some title => exact mapGet_mapInsert_ne p _ (Ne.symm h)

theorem mapGet_propertyAddDescription (p : List (Str × JsonValue)) (d : Option Str)
    {k : Str} (h : k ≠ "description".toList) :
    mapGet (propertyAddDescription p d) k = mapGet p k := by
  cases d with
  | none => rfl
  | some description => exact mapGet_mapInsert_ne p _ (Ne.symm h)

theorem mapGet_propertyAddFormat (p : List (Str × JsonValue)) (ft : Str)
    (ff : Option Str) {k : Str} (h1 : k ≠ "format".toList)
    (h2 : k ≠ "dkan_format".toList) :
    mapGet (propertyAddFormat p ft ff) k = mapGet p k := by
  unfold propertyAddFormat
  split <;> (try split) <;> (try split)
  · exact (mapGet_mapInsert_ne _ _ (Ne.symm h2)).trans (mapGet_mapInsert_ne p _ (Ne.symm h1))
  · exact mapGet_mapInsert_ne p _ (Ne.symm h1)
  · exact mapGet_mapInsert_ne p _ (Ne.symm h1)
  · exact mapGet_mapInsert_ne p _ (Ne.symm h1)
  · rfl
  · rfl

theorem mapGet_propertyAddMinLength (p : List (Str × JsonValue)) (c : ConstraintsDef)
    {k : Str} (h : k ≠ "minLength".toList) :
    mapGet (propertyAddMinLength p c) k = mapGet p k := by
  unfold propertyAddMinLength
  split <;> (try split)
  · exact mapGet_mapInsert_ne p _ (Ne.symm h)
  · rfl
  · rfl

theorem mapGet_propertyAddMaxLength (p : List (Str × JsonValue)) (c : ConstraintsDef)
    {k : Str} (h : k ≠ "maxLength".toList) :
    mapGet (propertyAddMaxLength p c) k = mapGet p k := by
  unfold propertyAddMaxLength
  split <;> (try split)
  · exact mapGet_mapInsert_ne p _ (Ne.symm h)
  · rfl
  · rfl

theorem mapGet_propertyAddMinimum (p : List (Str × JsonValue)) (c : ConstraintsDef)
    {k : Str} (h : k ≠ "minimum".toList) :
    mapGet (propertyAddMinimum p c) k = mapGet p k := by
  unfold propertyAddMinimum
  split <;> (try split)
  · exact mapGet_mapInsert_ne p _ (Ne.symm h)
  · rfl
  · rfl

theorem mapGet_propertyAddMaximum (p : List (Str × JsonValue)) (c : ConstraintsDef)
    {k : Str} (h : k ≠ "maximum".toList) :
    mapGet (propertyAddMaximum p c) k = mapGet p k := by
  unfold propertyAddMaximum
  split <;> (try split)
  · exact mapGet_mapInsert_ne p _ (Ne.symm h)
  · rfl
  · rfl

theorem mapGet_propertyAddPattern (p : List (Str × JsonValue)) (c : ConstraintsDef)
    {k : Str} (h : k ≠ "pattern".toList) :
    mapGet (propertyAddPattern p c) k = mapGet p k := by
  unfold propertyAddPattern
  split <;> (try split)
  · exact mapGet_mapInsert_ne p _ (Ne.symm h)
  · rfl
  · rfl

theorem mapGet_propertyAddEnum (p : List (Str × JsonValue)) (c : ConstraintsDef)
    {k : Str} (h : k ≠ "enum".toList) :
    mapGet (propertyAddEnum p c) k = mapGet p k := by
  unfold propertyAddEnum
  split
  · exact mapGet_mapInsert_ne p _ (Ne.symm h)
  · rfl

theorem mapGet_propertyAddConstraints (p : List (Str × JsonValue))
    (oc : Option ConstraintsDef) {k : Str}
    (h1 : k ≠ "minLength".toList) (h2 : k ≠ "maxLength".toList)
    (h3 : k ≠ "minimum".toList) (h4 : k ≠ "maximum".toList)
    (h5 : k ≠ "pattern".toList) (h6 : k ≠ "enum".toList) :
    mapGet (propertyAddConstraints p oc) k = mapGet p k := by
  cases oc with
  | none => rfl
  | some c =>
    simp [propertyAddConstraints, mapGet_propertyAddEnum _ _ h6,
      mapGet_propertyAddPattern _ _ h5, mapGet_propertyAddMaximum _ _ h4,
      mapGet_propertyAddMinimum _ _ h3, mapGet_propertyAddMaxLength _ _ h2,
      mapGet_propertyAddMinLength _ _ h1]

/-! ## `convertField` structure -/

theorem convertField_ok {field : FieldDef} {n : Str} (h : field.name = some n) :
    convertField field = .ok (n, .obj (fieldProperty field), willBeRequired field n) := by
  simp [convertField, fieldProperty, h]

theorem fieldProperty_eq {field : FieldDef} {n : Str} (h : field.name = some n) :
    fieldProperty field =
      propertyAddConstraints
        (propertyAddFormat
          (propertyAddDescription
            (propertyAddTitle
              (propertyInsertType [] (willBeRequired field n)
                (mapDkanTypeToJsonSchemaType (field.ftype.getD "string".toList)))
              field.title)
            field.description)
          (field.ftype.getD "string".toList) field.format)
        field.constraints := by
  simp [fieldProperty, convertField, h]

theorem fieldRequiredFlag_eq {field : FieldDef} {n : Str} (h : field.name = some n) :
    fieldRequiredFlag field = willBeRequired field n := by
  simp [fieldRequiredFlag, convertField, h]

theorem mapGet_propertyInsertType (p : List (Str × JsonValue)) (w : Bool) (ty : Str)
    {k : Str} (h : k ≠ "type".toList) :
    mapGet (propertyInsertType p w ty) k = mapGet p k := by
  unfold propertyInsertType
  split
  · exact mapGet_mapInsert_ne p _ (Ne.symm h)
  · exact mapGet_mapInsert_ne p _ (Ne.symm h)

theorem mapGet_fieldProperty_type {field : FieldDef} {n : Str} (h : field.name = some n) :
    mapGet (fieldProperty field) "type".toList =
      mapGet
        (propertyInsertType [] (willBeRequired field n)
          (mapDkanTypeToJsonSchemaType (field.ftype.getD "string".toList)))
        "type".toList := by
  rw [fieldProperty_eq h,
    mapGet_propertyAddConstraints _ _ (by decide) (by decide) (by decide) (by decide)
      (by decide) (by decide),
    mapGet_propertyAddFormat _ _ _ (by decide) (by decide),
    mapGet_propertyAddDescription _ _ (by decide),
    mapGet_propertyAddTitle _ _ (by decide)]

/-- C3: for every field definition processed by the dictionary-to-schema
converter, a field that is not required and whose mapped scalar type is neither
array nor object gets the declared type `[scalar, "null"]`, and a field whose
mapped scalar type is array or object gets the bare scalar type regardless of
requiredness. -/
theorem dkan_importer_c3_null_union_invariant (field : FieldDef) (n : Str)
    (h : field.name = some n) :
    (fieldRequiredFlag field = false →
      mapDkanTypeToJsonSchemaType (field.ftype.getD "string".toList) ≠ "array".toList →
      mapDkanTypeToJsonSchemaType (field.ftype.getD "string".toList) ≠ "object".toList →
      mapGet (fieldProperty field) "type".toList =
        some (.arr [.str (mapDkanTypeToJsonSchemaType (field.ftype.getD "string".toList)),
          .str "null".toList])) ∧
    ((mapDkanTypeToJsonSchemaType (field.ftype.getD "string".toList) = "array".toList ∨
      mapDkanTypeToJsonSchemaType (field.ftype.getD "string".toList) = "object".toList) →
      mapGet (fieldProperty field) "type".toList =
        some (.str (mapDkanTypeToJsonSchemaType (field.ftype.getD "string".toList)))) := by
  constructor
  · intro hreq harr hobj
    rw [fieldRequiredFlag_eq h] at hreq
    rw [mapGet_fieldProperty_type h]
    unfold propertyInsertType
    split
    · exact mapGet_mapInsert_self _ _ _
    · rename_i hcnd
      exfalso
      apply hcnd
      rw [hreq, decide_eq_false harr, decide_eq_false hobj]
      rfl
  · intro hscalar
    rw [mapGet_fieldProperty_type h]
    unfold propertyInsertType
    split
    · rename_i hcnd
      exfalso
      rcases hscalar with hs | hs <;> rw [hs] at hcnd <;> simp at hcnd
    · exact mapGet_mapInsert_self _ _ _

/-- Witness for `dkan_importer_c3_null_union_invariant`: a non-required integer
field gets the union type, and an array field gets the bare type. -/
theorem dkan_importer_c3_witness :
    mapGet (fieldProperty { name := some "f".toList, ftype := some "integer".toList })
        "type".toList =
      some (.arr [.str "integer".toList, .str "null".toList]) ∧
    mapGet (fieldProperty { name := some "g".toList, ftype := some "array".toList })
        "type".toList = some (.str "array".toList) :=
  ⟨(dkan_importer_c3_null_union_invariant
      { name := some "f".toList, ftype := some "integer".toList } _ rfl).1
      rfl (by decide) (by decide),
    (dkan_importer_c3_null_union_invariant
      { name := some "g".toList, ftype := some "array".toList } _ rfl).2
      (Or.inl (by decide))⟩

theorem mapGet_fieldProperty_format_key {field : FieldDef} {n : Str} {k : Str}
    (h : field.name = some n) (hk1 : k = "format".toList ∨ k = "dkan_format".toList) :
    mapGet (fieldProperty field) k =
      mapGet
        (propertyAddFormat
          (propertyAddDescription
            (propertyAddTitle
              (propertyInsertType [] (willBeRequired field n)
                (mapDkanTypeToJsonSchemaType (field.ftype.getD "string".toList)))
              field.title)
            field.description)
          (field.ftype.getD "string".toList) field.format) k := by
  rcases hk1 with hk | hk <;>
    (subst hk
     rw [fieldProperty_eq h,
       mapGet_propertyAddConstraints _ _ (by decide) (by decide) (by decide) (by decide)
         (by decide) (by decide)])

theorem mapGet_base_format_none (w : Bool) (ty : Str) (t d : Option Str) {k : Str}
    (hk1 : k = "format".toList ∨ k = "dkan_format".toList) :
    mapGet (propertyAddDescription (propertyAddTitle (propertyInsertType [] w ty) t) d)
      k = none := by
  rcases hk1 with hk | hk <;>
    (subst hk
     rw [mapGet_propertyAddDescription _ _ (by decide),
       mapGet_propertyAddTitle _ _ (by decide),
       mapGet_propertyInsertType _ _ _ (by decide)]
     rfl)

theorem propertyAddFormat_datetime_plain (p : List (Str × JsonValue)) (ff : Option Str)
    (hff : ff = none ∨ ff = some "default".toList ∨ ff = some []) :
    propertyAddFormat p "datetime".toList ff =
      mapInsert p "format".toList (.str "date-time".toList) := by
  rcases hff with hf | hf | hf <;> subst hf <;> rfl

theorem propertyAddFormat_datetime_custom (p : List (Str × JsonValue)) (v : Str)
    (hvd : v ≠ "default".toList) (hve : v ≠ []) :
    propertyAddFormat p "datetime".toList (some v) =
      mapInsert (mapInsert p "format".toList (.str v)) "dkan_format".toList (.str v) := by
  cases v with
  | nil => exact absurd rfl hve
  | cons c t =>
    have hcond :
        (!decide ((c :: t : Str) = "default".toList) && !(c :: t : Str).isEmpty) = true := by
      rw [decide_eq_false hvd]
      rfl
    unfold propertyAddFormat
    rw [if_pos rfl]
    split
    · rename_i ft title heq
      cases heq
      rw [if_pos hcond]
    · rename_i ft heq
      simp at heq

/-- C8 (amended): for a `datetime` field, an absent, `"default"` or
empty-string dictionary format yields the emitted format `"date-time"` and no
`dkan_format` hint; any other format value is emitted verbatim and also recorded
as the `dkan_format` side channel. -/
theorem dkan_importer_c8_datetime_format (field : FieldDef) (n : Str)
    (h : field.name = some n) (hdt : field.ftype = some "datetime".toList) :
    ((field.format = none ∨ field.format = some "default".toList ∨
        field.format = some []) →
      mapGet (fieldProperty field) "format".toList = some (.str "date-time".toList) ∧
      mapGet (fieldProperty field) "dkan_format".toList = none) ∧
    (∀ v, field.format = some v → v ≠ "default".toList → v ≠ [] →
      mapGet (fieldProperty field) "format".toList = some (.str v) ∧
      mapGet (fieldProperty field) "dkan_format".toList = some (.str v)) := by
  have hft : field.ftype.getD "string".toList = "datetime".toList := by rw [hdt]; rfl
  constructor
  · intro hfmt
    rw [mapGet_fieldProperty_format_key h (Or.inl rfl),
      mapGet_fieldProperty_format_key h (Or.inr rfl), hft,
      propertyAddFormat_datetime_plain _ _ hfmt]
    exact ⟨mapGet_mapInsert_self _ _ _,
      (mapGet_mapInsert_ne _ _ (by decide)).trans
        (mapGet_base_format_none _ _ _ _ (Or.inr rfl))⟩
  · intro v hv hvd hve
    rw [mapGet_fieldProperty_format_key h (Or.inl rfl),
      mapGet_fieldProperty_format_key h (Or.inr rfl), hft, hv,
      propertyAddFormat_datetime_custom _ _ hvd hve]
    exact ⟨(mapGet_mapInsert_ne _ _ (by decide)).trans (mapGet_mapInsert_self _ _ _),
      mapGet_mapInsert_self _ _ _⟩

/-- Counterexample to C8 as stated: for a datetime field whose dictionary format
is the empty string, the emitted format is `"date-time"`, not the verbatim empty
string, and no `dkan_format` hint is recorded. -/
theorem dkan_importer_c8_counterexample :
    mapGet
        (fieldProperty
          { name := some "d".toList, ftype := some "datetime".toList,
                    format := some [] })
        "format".toList = some (.str "date-time".toList) ∧
    mapGet
        (fieldProperty
          { name := some "d".toList, ftype := some "datetime".toList,
                    format := some [] })
        "dkan_format".toList = none ∧
    "date-time".toList ≠ ([] : Str) :=
  ⟨rfl, rfl, by decide⟩

/-- Witness for `dkan_importer_c8_datetime_format`: a `"default"` format maps to
`"date-time"`, a custom format is copied verbatim with the `dkan_format` hint. -/
theorem dkan_importer_c8_witness :
    mapGet
        (fieldProperty
          { name := some "d".toList, ftype := some "datetime".toList,
                    format := some "default".toList })
        "format".toList = some (.str "date-time".toList) ∧
    mapGet
        (fieldProperty
          { name := some "e".toList, ftype := some "datetime".toList,
                    format := some "%Y/%m/%d".toList })
        "dkan_format".toList = some (.str "%Y/%m/%d".toList) :=
  ⟨((dkan_importer_c8_datetime_format
        { name := some "d".toList, ftype := some "datetime".toList,
                  format := some "default".toList } _ rfl rfl).1
      (Or.inr (Or.inl rfl))).1,
    ((dkan_importer_c8_datetime_format
        { name := some "e".toList, ftype := some "datetime".toList,
                  format := some "%Y/%m/%d".toList } _ rfl rfl).2
      "%Y/%m/%d".toList rfl (by decide) (by decide)).2⟩

/-! ## The full converter: properties and required list -/

theorem convertFields_required (fields : List FieldDef)
    (h : ∀ f ∈ fields, f.name.isSome) :
    ∀ props reqs, ∃ ps, convertFields fields props reqs =
      .ok (ps, reqs ++
        (fields.filter fun f => fieldRequiredFlag f).map fun f => f.name.getD []) := by
  induction fields with
  | nil =>
    intro props reqs
    exact ⟨props, by simp [convertFields]⟩
  | cons f rest ih =>
    intro props reqs
    obtain ⟨n, hn⟩ := Option.isSome_iff_exists.mp (h f (List.mem_cons_self f rest))
    have hrest : ∀ g ∈ rest, g.name.isSome := fun g hg => h g (List.mem_cons_of_mem f hg)
    obtain ⟨ps, hps⟩ := ih hrest (mapInsert props n (.obj (fieldProperty f)))
      (if willBeRequired f n then reqs ++ [n] else reqs)
    refine ⟨ps, ?_⟩
    simp only [convertFields, convertField_ok hn]
    rw [hps]
    by_cases hw : willBeRequired f n <;>
      simp [hw, List.filter_cons, fieldRequiredFlag_eq hn, hn]

theorem convertFields_props (fields : List FieldDef)
    (h : ∀ f ∈ fields, f.name.isSome) :
    ∀ props reqs,
      (props.map Prod.fst ++ fields.map fun f => f.name.getD []).Nodup →
      ∃ rs, convertFields fields props reqs =
        .ok (props ++ fields.map fun f => (f.name.getD [], JsonValue.obj (fieldProperty f)),
          rs) := by
  induction fields with
  | nil =>
    intro props reqs _
    exact ⟨reqs, by simp [convertFields]⟩
  | cons f rest ih =>
    intro props reqs hnd
    obtain ⟨n, hn⟩ := Option.isSome_iff_exists.mp (h f (List.mem_cons_self f rest))
    have hrest : ∀ g ∈ rest, g.name.isSome := fun g hg => h g (List.mem_cons_of_mem f hg)
    have hnotmem : n ∉ props.map Prod.fst := by
      intro hmem
      rw [List.nodup_append] at hnd
      exact hnd.2.2 hmem (by simp [hn])
    have hnd' : ((props ++ [(n, JsonValue.obj (fieldProperty f))]).map Prod.fst ++
        rest.map fun f => f.name.getD []).Nodup := by
      simp only [List.map_append, List.map_cons, List.map_nil, List.append_assoc,
        List.singleton_append]
      simpa [hn] using hnd
    obtain ⟨rs, hrs⟩ := ih hrest (props ++ [(n, JsonValue.obj (fieldProperty f))])
      (if willBeRequired f n then reqs ++ [n] else reqs) hnd'
    refine ⟨rs, ?_⟩
    simp only [convertFields, convertField_ok hn]
    rw [mapInsert_eq_append props _ hnotmem, hrs]
    simp [hn]

theorem filterMap_asStr_map_str (l : List Str) :
    (l.map JsonValue.str).filterMap JsonValue.asStr = l := by
  induction l with
  | nil => rfl
  | cons a t ih => simp [JsonValue.asStr, ih]

theorem schema_extraction (t : Option Str) (fields : List FieldDef)
    (props : List (Str × JsonValue)) (reqs : List Str)
    (hcf : convertFields fields [] [] = .ok (props, reqs)) :
    schemaProperties (convert_data_dictionary_to_json_schema ⟨t, some fields⟩) = props ∧
    schemaRequired (convert_data_dictionary_to_json_schema ⟨t, some fields⟩) = reqs := by
  simp only [convert_data_dictionary_to_json_schema, hcf]
  by_cases hr : reqs.isEmpty
  · rw [List.isEmpty_iff] at hr
    subst hr
    simp only [List.isEmpty_nil, Bool.not_true, Bool.false_eq_true, if_false]
    constructor
    · simp only [schemaProperties]
      rw [mapGet_mapInsert_ne _ _ (by decide), mapGet_mapInsert_self]
    · simp only [schemaRequired]
      rw [mapGet_mapInsert_ne _ _ (by decide), mapGet_mapInsert_ne _ _ (by decide),
        mapGet_mapInsert_ne _ _ (by decide), mapGet_mapInsert_ne _ _ (by decide),
        mapGet_mapInsert_ne _ _ (by decide)]
      rfl
  · simp only [hr, Bool.not_false, if_true]
    constructor
    · simp only [schemaProperties]
      rw [mapGet_mapInsert_ne _ _ (by decide), mapGet_mapInsert_ne _ _ (by decide),
        mapGet_mapInsert_self]
    · simp only [schemaRequired]
      rw [mapGet_mapInsert_ne _ _ (by decide), mapGet_mapInsert_self]
      exact filterMap_asStr_map_str reqs

/-- Counterexample to C1 as stated: a field with name `"n"` and (normalized,
non-empty) title `"T"` is inserted under the key `"n"`; no property exists
under the title `"T"`.  The property key is the raw field name, not the
normalized title. -/
theorem dkan_importer_c1_counterexample :
    mapGet
        (schemaProperties (convert_data_dictionary_to_json_schema
          ⟨some "S".toList,
            some [{ name := some "n".toList, title := some "T".toList,
                    ftype := some "string".toList }]⟩))
        "T".toList = none ∧
    normalize_string_model "T".toList = "T".toList ∧
    "T".toList ≠ ([] : Str) ∧
    mapGet
        (schemaProperties (convert_data_dictionary_to_json_schema
          ⟨some "S".toList,
            some [{ name := some "n".toList, title := some "T".toList,
                    ftype := some "string".toList }]⟩))
        "n".toList =
      some (.obj (fieldProperty
        { name := some "n".toList, title := some "T".toList,
                  ftype := some "string".toList })) :=
  ⟨rfl, rfl, by decide, rfl⟩

/-- C1 (amended): the property key under which each field's schema is inserted
is the field's `name` value verbatim — the title is never used as the key and
no normalization is applied. -/
theorem dkan_importer_c1_property_keys (t : Option Str) (fields : List FieldDef)
    (h1 : ∀ f ∈ fields, f.name.isSome)
    (h2 : (fields.map fun f => f.name.getD []).Nodup) :
    (schemaProperties
        (convert_data_dictionary_to_json_schema ⟨t, some fields⟩)).map Prod.fst =
      fields.map fun f => f.name.getD [] := by
  obtain ⟨rs, hrs⟩ := convertFields_props fields h1 [] [] (by simpa using h2)
  rw [(schema_extraction t fields _ _ hrs).1]
  simp

/-- Witness for `dkan_importer_c1_property_keys`: two fields with distinct
names and titles; the property keys are exactly the names. -/
theorem dkan_importer_c1_witness :
    (schemaProperties (convert_data_dictionary_to_json_schema
        ⟨some "S".toList,
          some [{ name := some "a".toList, title := some "Alpha".toList },
            { name := some "b".toList, title := some "Beta".toList }]⟩)).map
        Prod.fst =
      ["a".toList, "b".toList] :=
  (dkan_importer_c1_property_keys (some "S".toList)
    [{ name := some "a".toList, title := some "Alpha".toList },
      { name := some "b".toList, title := some "Beta".toList }]
    (by decide) (by decide)).trans rfl

/-- C2: a field ends up in the schema's `required` list exactly when its
trimmed name ends with `'*'`, or its trimmed title ends with `'*'`, or its
`constraints.required` equals the JSON value `true` — the three conditions are
OR-combined over every field, covering the whole 2×2×2 truth table. -/
theorem dkan_importer_c2_required_or (t : Option Str) (fields : List FieldDef)
    (h : ∀ f ∈ fields, f.name.isSome) :
    schemaRequired (convert_data_dictionary_to_json_schema ⟨t, some fields⟩) =
      (fields.filter fun f =>
        nameIndicatesRequired (f.name.getD []) || titleIndicatesRequired f.title ||
          (match f.constraints with
           | some c =>
             match c.required with
             | some (JsonValue.bool true) => true
             | _ => false
           | none => false)).map fun f => f.name.getD [] := by
  obtain ⟨ps, hps⟩ := convertFields_required fields h [] []
  rw [(schema_extraction t fields _ _ hps).2]
  simp only [List.nil_append]
  have hcong : ∀ f ∈ fields, fieldRequiredFlag f =
      (nameIndicatesRequired (f.name.getD []) || titleIndicatesRequired f.title ||
        (match f.constraints with
         | some c =>
           match c.required with
           | some (JsonValue.bool true) => true
           | _ => false
         | none => false)) := by
    intro f hf
    obtain ⟨n, hn⟩ := Option.isSome_iff_exists.mp (h f hf)
    rw [fieldRequiredFlag_eq hn, hn]
    unfold willBeRequired
    cases hc : f.constraints with
    | none => simp [hc]
    | some c =>
      cases hcr : c.required with
      | none => simp [hc, hcr]
      | some r =>
        cases r with
        | bool b => cases b <;> simp [hc, hcr, JsonValue.asBool]
        | null => simp [hc, hcr, JsonValue.asBool]
        | intg i => simp [hc, hcr, JsonValue.asBool]
        | flt q => simp [hc, hcr, JsonValue.asBool]
        | str s => simp [hc, hcr, JsonValue.asBool]
        | arr l => simp [hc, hcr, JsonValue.asBool]
        | obj m => simp [hc, hcr, JsonValue.asBool]
  rw [List.filter_congr hcong]

/-- Witness for `dkan_importer_c2_required_or`: all eight combinations of
(name-asterisk, title-asterisk, explicit-constraint); exactly the fields with
at least one indication are required. -/
theorem dkan_importer_c2_witness :
    schemaRequired (convert_data_dictionary_to_json_schema
        ⟨none,
          some [{ name := some "a*".toList, title := some "t1".toList },
            { name := some "b".toList, title := some "t2*".toList },
            { name := some "c".toList, title := some "t3".toList,
                    constraints := some { required := some (.bool true) } },
            { name := some "d".toList, title := some "t4".toList },
            { name := some "e*".toList, title := some "t5*".toList },
            { name := some "f*".toList,
                    constraints := some { required := some (.bool true) } },
            { name := some "g".toList, title := some "t7*".toList,
                    constraints := some { required := some (.bool true) } },
            { name := some "h".toList, title := some "t8".toList,
                    constraints := some { required := some (.bool false) } }]⟩) =
      ["a*".toList, "b".toList, "c".toList, "e*".toList, "f*".toList, "g".toList] :=
  (dkan_importer_c2_required_or none _ (by decide)).trans rfl

theorem coerce_integer_eq (jp : Str → Option JsonValue) (s : Str) (fmt pat : Option Str)
    (ev : Option (List JsonValue)) (mn mx : Option ℚ) (mnl mxl : Option Nat) :
    coerce_string_to_schema_type jp s ⟨.integer, fmt, pat, ev, mn, mx, mnl, mxl⟩ =
      coerceIntegerStr s mn mx := by
  rw [coerce_string_to_schema_type]

theorem coerce_number_eq (jp : Str → Option JsonValue) (s : Str) (fmt pat : Option Str)
    (ev : Option (List JsonValue)) (mn mx : Option ℚ) (mnl mxl : Option Nat) :
    coerce_string_to_schema_type jp s ⟨.number, fmt, pat, ev, mn, mx, mnl, mxl⟩ =
      coerceNumberStr s mn mx := by
  rw [coerce_string_to_schema_type]

theorem takeWhile_all {p : Char → Bool} : ∀ {l : Str}, l.all p = true → l.takeWhile p = l := by
  intro l h
  induction l with
  | nil => rfl
  | cons c cs ih =>
    simp only [List.all_cons, Bool.and_eq_true] at h
    simp [List.takeWhile_cons, h.1, ih h.2]

theorem dropWhile_all {p : Char → Bool} : ∀ {l : Str}, l.all p = true → l.dropWhile p = [] := by
  intro l h
  induction l with
  | nil => rfl
  | cons c cs ih =>
    simp only [List.all_cons, Bool.and_eq_true] at h
    simp [List.dropWhile_cons, h.1, ih h.2]

theorem parseDigitsAll_some {l : Str} {n : Nat} (h : parseDigitsAll l = some n) :
    l ≠ [] ∧ l.all isAsciiDigit = true ∧ digitsToNat l = n := by
  unfold parseDigitsAll at h
  by_cases hc : (!l.isEmpty && l.all isAsciiDigit) = true
  · rw [if_pos hc] at h
    injection h with h'
    simp only [Bool.and_eq_true, Bool.not_eq_true'] at hc
    refine ⟨?_, hc.2, h'⟩
    intro he
    subst he
    simp at hc
  · rw [if_neg hc] at h
    exact absurd h (by simp)

theorem parseI64_range {s : Str} {v : Int} (h : parseI64 s = some v) :
    -(2 ^ 63 : Int) ≤ v ∧ v ≤ 2 ^ 63 - 1 := by
  unfold parseI64 at h
  cases hsd : parseSignedDigits s with
  | none => rw [hsd] at h; exact absurd h (by simp)
  | some w =>
    rw [hsd] at h
    dsimp only at h
    split_ifs at h with hr
    injection h with h'
    subst h'
    exact hr

theorem parseI64_to_parseF64 {s : Str} {v : Int} (h : parseI64 s = some v) :
    parseF64 s = some (v : ℚ) := by
  unfold parseI64 at h
  cases hsd : parseSignedDigits s with
  | none => rw [hsd] at h; exact absurd h (by simp)
  | some w =>
    rw [hsd] at h
    dsimp only at h
    split_ifs at h with hr
    injection h with h'
    subst h'
    unfold parseSignedDigits at hsd
    cases hda : parseDigitsAll (splitSign s).2 with
    | none => rw [hda] at hsd; exact absurd hsd (by simp)
    | some n =>
      rw [hda] at hsd
      have hw : (splitSign s).1 * (n : Int) = w := by simpa using hsd
      obtain ⟨hne, hall, hdg⟩ := parseDigitsAll_some hda
      unfold parseF64
      dsimp only
      rw [takeWhile_all hall, dropWhile_all hall]
      dsimp only
      simp only [List.isEmpty_eq_true, hne, if_false, applyExponent]
      rw [hdg, ← hw]
      push_cast
      ring_nf

theorem ratFract_intCast (v : Int) : ratFract ((v : Int) : ℚ) = 0 := by
  unfold ratFract ratTrunc
  by_cases h : (0 : ℚ) ≤ (v : ℚ) <;> simp [h]

theorem epsilonF64_pos : 0 < epsilonF64 := by norm_num [epsilonF64]

theorem f64ToI64Sat_intCast {v : Int} (h1 : -(2 ^ 63 : Int) ≤ v) (h2 : v ≤ 2 ^ 63 - 1) :
    f64ToI64Sat (v : ℚ) = v := by
  unfold f64ToI64Sat ratTrunc
  by_cases h : (0 : ℚ) ≤ (v : ℚ) <;> simp [h] <;> (try split_ifs) <;> omega

theorem coerceIntegerStr_bounds (s : Str) (mn mx : ℚ) :
    (∀ i, coerceIntegerStr s (some mn) (some mx) = .intg i →
      ∃ q : ℚ, mn ≤ q ∧ q ≤ mx ∧ |ratFract q| < epsilonF64 ∧ i = f64ToI64Sat q) ∧
    (∀ q, coerceIntegerStr s (some mn) (some mx) ≠ .flt q) ∧
    (∀ q, parseF64 s = some q → (q < mn ∨ mx < q) →
      coerceIntegerStr s (some mn) (some mx) = .str s) := by
  unfold coerceIntegerStr
  cases hp : parseI64 s with
  | some v =>
    dsimp only
    obtain ⟨hr1, hr2⟩ := parseI64_range hp
    have hpf := parseI64_to_parseF64 hp
    split_ifs with hb
    · refine ⟨?_, ?_, ?_⟩
      · intro i hi
        injection hi with hi'
        refine ⟨(v : ℚ), hb.1, hb.2, ?_, ?_⟩
        · rw [ratFract_intCast]
          simpa using epsilonF64_pos
        · rw [f64ToI64Sat_intCast hr1 hr2]
          exact hi'.symm
      · intro q hq
        exact absurd hq (by simp)
      · intro q hq hout
        rw [hpf] at hq
        injection hq with hq'
        subst hq'
        rcases hout with hlt | hlt
        · exact absurd hb.1 (not_le.mpr hlt)
        · exact absurd hb.2 (not_le.mpr hlt)
    · -- out-of-bounds i64 value: the float path re-checks the same bounds and falls to the string
      rw [hpf]
      dsimp only
      rw [if_pos (by rw [ratFract_intCast]; simpa using epsilonF64_pos)]
      rw [if_neg hb]
      refine ⟨?_, ?_, ?_⟩
      · intro i hi
        exact absurd hi (by simp)
      · intro q hq
        exact absurd hq (by simp)
      · intro q _ _
        rfl
  | none =>
    cases hq0 : parseF64 s with
    | none =>
      refine ⟨?_, ?_, ?_⟩
      · intro i hi
        exact absurd hi (by simp)
      · intro q hq
        exact absurd hq (by simp)
      · intro q hq hout
        exact absurd hq (by simp)
    | some q0 =>
      dsimp only
      split_ifs with hf hb
      · refine ⟨?_, ?_, ?_⟩
        · intro i hi
          injection hi with hi'
          exact ⟨q0, hb.1, hb.2, hf, hi'.symm⟩
        · intro q hq
          exact absurd hq (by simp)
        · intro q hq hout
          injection hq with hq'
          subst hq'
          rcases hout with hlt | hlt
          · exact absurd hb.1 (not_le.mpr hlt)
          · exact absurd hb.2 (not_le.mpr hlt)
      · exact ⟨fun i hi => absurd hi (by simp), fun q hq => absurd hq (by simp),
          fun q _ _ => rfl⟩
      · exact ⟨fun i hi => absurd hi (by simp), fun q hq => absurd hq (by simp),
          fun q _ _ => rfl⟩

theorem coerceNumberStr_bounds (s : Str) (mn mx : ℚ) :
    (∀ i, coerceNumberStr s (some mn) (some mx) = .intg i →
      mn ≤ (i : ℚ) ∧ (i : ℚ) ≤ mx) ∧
    (∀ q, coerceNumberStr s (some mn) (some mx) = .flt q → mn ≤ q ∧ q ≤ mx) ∧
    (∀ nv q, smart_number_conversion s = some nv → nv.asF64 = some q →
      (q < mn ∨ mx < q) → coerceNumberStr s (some mn) (some mx) = .str s) := by
  unfold coerceNumberStr
  cases hs : smart_number_conversion s with
  | none =>
    exact ⟨fun i hi => absurd hi (by simp), fun q hq => absurd hq (by simp),
      fun nv q hnv _ _ => absurd hnv (by simp)⟩
  | some nv =>
    dsimp only
    cases hf : nv.asF64 with
    | none =>
      exact ⟨fun i hi => absurd hi (by simp), fun q hq => absurd hq (by simp),
        fun nv' q hnv' hq' hout => rfl⟩
    | some qv =>
      dsimp only
      split_ifs with hb
      · refine ⟨fun i hi => ?_, fun q hq => ?_, fun nv' q hnv' hq' hout => ?_⟩
        · rw [hi] at hf
          simp only [JsonValue.asF64] at hf
          injection hf with hf'
          rw [← hf'] at hb
          exact_mod_cast hb
        · rw [hq] at hf
          simp only [JsonValue.asF64] at hf
          injection hf with hf'
          rw [← hf'] at hb
          exact hb
        · injection hnv' with hnv''
          subst hnv''
          rw [hq'] at hf
          injection hf with hf'
          subst hf'
          rcases hout with hlt | hlt
          · exact absurd hb.1 (not_le.mpr hlt)
          · exact absurd hb.2 (not_le.mpr hlt)
      · exact ⟨fun i hi => absurd hi (by simp), fun q hq => absurd hq (by simp),
          fun nv' q _ _ _ => rfl⟩

/-- C4 (amended): for an Integer or Number field schema with both bounds set,
string coercion substitutes a numeric value only when the parsed numeric value
lies within `[minimum, maximum]`; for Integer fields the substituted integer is
the saturating truncation of that in-bounds parsed value (whose fractional part
is below `f64::EPSILON`, so it may lie marginally outside the bounds); any
string whose parsed numeric value lies outside the bounds is returned unchanged. -/
theorem dkan_importer_c4_coercion_bounds (jp : Str → Option JsonValue) (s : Str)
    (fs : FieldSchema) (mn mx : ℚ) (hmin : fs.minimum = some mn)
    (hmax : fs.maximum = some mx) :
    (fs.fieldType = .integer →
      (∀ i, coerce_string_to_schema_type jp s fs = .intg i →
        ∃ q : ℚ, mn ≤ q ∧ q ≤ mx ∧ |ratFract q| < epsilonF64 ∧ i = f64ToI64Sat q) ∧
      (∀ q, coerce_string_to_schema_type jp s fs ≠ .flt q) ∧
      (∀ q, parseF64 s = some q → (q < mn ∨ mx < q) →
        coerce_string_to_schema_type jp s fs = .str s)) ∧
    (fs.fieldType = .number →
      (∀ i, coerce_string_to_schema_type jp s fs = .intg i →
        mn ≤ (i : ℚ) ∧ (i : ℚ) ≤ mx) ∧
      (∀ q, coerce_string_to_schema_type jp s fs = .flt q → mn ≤ q ∧ q ≤ mx) ∧
      (∀ nv q, smart_number_conversion s = some nv → nv.asF64 = some q →
        (q < mn ∨ mx < q) → coerce_string_to_schema_type jp s fs = .str s)) := by
  obtain ⟨ft, fmt, pat, ev, mno, mxo, mnl, mxl⟩ := fs
  dsimp only at hmin hmax
  subst hmin
  subst hmax
  constructor
  · intro hft
    dsimp only at hft
    subst hft
    rw [coerce_integer_eq]
    exact coerceIntegerStr_bounds s mn mx
  · intro hft
    dsimp only at hft
    subst hft
    rw [coerce_number_eq]
    exact coerceNumberStr_bounds s mn mx

/-- Counterexample to C4 as stated: for the bounded Integer schema
`[10^-17, 1]` and the input `"0.0000000000000001"` (which parses to `10^-16`,
inside the bounds, with fractional part below `f64::EPSILON`), coercion
substitutes the truncated integer `0`, a numeric value lying below the
minimum. -/
theorem dkan_importer_c4_counterexample :
    coerce_string_to_schema_type (fun _ => none) "0.0000000000000001".toList
        { fieldType := .integer, minimum := some (1 / 100000000000000000),
          maximum := some 1 } =
      .intg 0 ∧
    ¬ ((1 / 100000000000000000 : ℚ) ≤ ((0 : Int) : ℚ)) := by
  constructor
  · rw [coerce_integer_eq]
    have hp : parseI64 "0.0000000000000001".toList = none := by decide
    have hq : parseF64 "0.0000000000000001".toList =
        some (1 / 10000000000000000 : ℚ) := by
      have h : parseF64 "0.0000000000000001".toList =
          some ((((1 : Int) : ℚ)) *
            (((0 : Nat) : ℚ) + ((1 : Nat) : ℚ) / (10 : ℚ) ^ (16 : Nat))) := rfl
      rw [h]
      norm_num
    have hfl : (⌊(1 / 10000000000000000 : ℚ)⌋ : Int) = 0 := by
      rw [Int.floor_eq_zero_iff]
      constructor <;> norm_num
    have htr : ratTrunc (1 / 10000000000000000 : ℚ) = 0 := by
      unfold ratTrunc
      rw [if_pos (by norm_num)]
      exact hfl
    have hfr : ratFract (1 / 10000000000000000 : ℚ) = 1 / 10000000000000000 := by
      unfold ratFract
      rw [htr]
      norm_num
    have hsat : f64ToI64Sat (1 / 10000000000000000 : ℚ) = 0 := by
      unfold f64ToI64Sat
      rw [htr]
      norm_num
    unfold coerceIntegerStr
    rw [hp, hq]
    dsimp only
    rw [if_pos (by rw [hfr, abs_of_pos (by norm_num)]; norm_num [epsilonF64])]
    rw [if_pos (by constructor <;> norm_num)]
    rw [hsat]
  · norm_num

/-- Witness for `dkan_importer_c4_coercion_bounds` (example scenario D): the
Integer field bounded `[1, 10]` leaves the out-of-bounds string `"15"`
unchanged, and accepts `"5"` as the integer `5`. -/
theorem dkan_importer_c4_witness :
    coerce_string_to_schema_type (fun _ => none) "15".toList
        { fieldType := .integer, minimum := some 1, maximum := some 10 } =
      .str "15".toList ∧
    (1 : ℚ) ≤ 5 ∧ (5 : ℚ) ≤ 10 := by
  refine ⟨?_, by norm_num, by norm_num⟩
  exact ((dkan_importer_c4_coercion_bounds (fun _ => none) "15".toList
      { fieldType := .integer, minimum := some 1, maximum := some 10 } 1 10
      rfl rfl).1 rfl).2.2 ((15 : Int) : ℚ)
    (parseI64_to_parseF64 (by decide)) (Or.inr (by norm_num))

/-- C10: when exactly one of minimum/maximum is set, the bounds are not
enforced during string coercion: every string parsing as an i64 coerces to that
integer for an Integer field, and every smart-converted number is substituted
unconditionally for a Number field. -/
theorem dkan_importer_c10_single_bound (jp : Str → Option JsonValue) (s : Str)
    (fs : FieldSchema)
    (hone : (fs.minimum.isSome ∧ fs.maximum = none) ∨
      (fs.minimum = none ∧ fs.maximum.isSome)) :
    (fs.fieldType = .integer → ∀ v, parseI64 s = some v →
      coerce_string_to_schema_type jp s fs = .intg v) ∧
    (fs.fieldType = .number → ∀ nv, smart_number_conversion s = some nv →
      coerce_string_to_schema_type jp s fs = nv) := by
  obtain ⟨ft, fmt, pat, ev, mno, mxo, mnl, mxl⟩ := fs
  dsimp only at hone
  constructor
  · intro hft v hv
    dsimp only at hft
    subst hft
    rw [coerce_integer_eq]
    unfold coerceIntegerStr
    rw [hv]
    dsimp only
    rcases hone with ⟨h1, h2⟩ | ⟨h1, h2⟩
    · subst h2
      rcases Option.isSome_iff_exists.mp h1 with ⟨a, ha⟩
      subst ha
      rfl
    · subst h1
      rcases Option.isSome_iff_exists.mp h2 with ⟨b, hb⟩
      subst hb
      rfl
  · intro hft nv hnv
    dsimp only at hft
    subst hft
    rw [coerce_number_eq]
    unfold coerceNumberStr
    rw [hnv]
    dsimp only
    rcases hone with ⟨h1, h2⟩ | ⟨h1, h2⟩
    · subst h2
      rcases Option.isSome_iff_exists.mp h1 with ⟨a, ha⟩
      subst ha
      rfl
    · subst h1
      rcases Option.isSome_iff_exists.mp h2 with ⟨b, hb⟩
      subst hb
      rfl

/-- Witness for `dkan_importer_c10_single_bound`: with only a maximum of 10
set, `"15"` still coerces to the integer 15 for an Integer field, and `"2.5"`
coerces to the float 5/2 for a Number field with only a minimum of 100. -/
theorem dkan_importer_c10_witness :
    coerce_string_to_schema_type (fun _ => none) "15".toList
        { fieldType := .integer, maximum := some 10 } = .intg 15 ∧
    coerce_string_to_schema_type (fun _ => none) "2.5".toList
        { fieldType := .number, minimum := some 100 } = .flt (5 / 2) := by
  constructor
  · exact (dkan_importer_c10_single_bound (fun _ => none) "15".toList
      { fieldType := .integer, maximum := some 10 }
      (Or.inr ⟨rfl, rfl⟩)).1 rfl 15 rfl
  · refine ((dkan_importer_c10_single_bound (fun _ => none) "2.5".toList
      { fieldType := .number, minimum := some 100 }
      (Or.inl ⟨rfl, rfl⟩)).2 rfl (.flt (5 / 2)) ?_)
    have hp : parseI64 "2.5".toList = none := by decide
    have hq : parseF64 "2.5".toList = some (5 / 2 : ℚ) := by
      have h : parseF64 "2.5".toList =
          some ((((1 : Int) : ℚ)) *
            (((2 : Nat) : ℚ) + ((5 : Nat) : ℚ) / (10 : ℚ) ^ (1 : Nat))) := rfl
      rw [h]
      norm_num
    have hfl : (⌊(5 / 2 : ℚ)⌋ : Int) = 2 := by
      rw [Int.floor_eq_iff]
      constructor <;> norm_num
    have htr : ratTrunc (5 / 2 : ℚ) = 2 := by
      unfold ratTrunc
      rw [if_pos (by norm_num)]
      exact hfl
    have hfr : ratFract (5 / 2 : ℚ) = 1 / 2 := by
      unfold ratFract
      rw [htr]
      norm_num
    unfold smart_number_conversion
    rw [hp, hq]
    dsimp only
    rw [if_neg]
    intro hcontra
    have h1 := hcontra.1
    rw [hfr, abs_of_pos (by norm_num)] at h1
    norm_num [epsilonF64] at h1

theorem acceptRemaining_eq (c : JsonValue) (s : Str) :
    (!c.isString || !(c.asStr == some s)) = decide (c.asStr ≠ some s) := by
  cases c <;> simp [JsonValue.isString, JsonValue.asStr]
  case str t => by_cases h : t = s <;> simp [h]

theorem tryRemainingTypes_eq (jp : Str → Option JsonValue) (s : Str)
    (fs : FieldSchema) : ∀ types : List SchemaType,
    tryRemainingTypes jp s fs types =
      match (types.filter fun t => !isPreferredScalar t).findSome? (fun t =>
          let c := coerce_string_to_schema_type jp s { fs with fieldType := t }
          if decide (c.asStr ≠ some s) then some c else none) with
      | some v => v
      | none => .str s := by
  intro types
  induction types with
  | nil =>
    rw [tryRemainingTypes]
    rfl
  | cons t rest ih =>
    rw [tryRemainingTypes]
    by_cases hp : isPreferredScalar t
    · simp only [hp, Bool.not_true, Bool.false_eq_true, if_false, List.filter_cons]
      rw [ih]
    · simp only [hp, Bool.not_false, if_true, List.filter_cons, Bool.not_eq_true']
      rw [acceptRemaining_eq]
      simp only [hp, Bool.not_false, if_true, List.findSome?_cons]
      by_cases hacc :
          decide ((coerce_string_to_schema_type jp s
            { fs with fieldType := t }).asStr ≠ some s) = true
      · simp only [hacc, if_true]
      · simp only [Bool.not_eq_true] at hacc
        simp only [hacc, Bool.false_eq_true, if_false]
        rw [ih]

/-- C7: the Mixed(types) arm of string coercion equals the specification's
description — preferred order Integer, Number, Boolean, String restricted to
the types present (String accepted when the result is a string, the others when
it is no longer a string), then the remaining declared types in original order
accepting the first result differing from the input string, else the original
string. -/
theorem dkan_importer_c7_mixed_order (jp : Str → Option JsonValue) (s : Str)
    (fmt pat : Option Str) (ev : Option (List JsonValue)) (mn mx : Option ℚ)
    (mnl mxl : Option Nat) (types : List SchemaType) :
    coerce_string_to_schema_type jp s ⟨.mixed types, fmt, pat, ev, mn, mx, mnl, mxl⟩ =
      mixedCoercionSpec jp s ⟨.mixed types, fmt, pat, ev, mn, mx, mnl, mxl⟩ types := by
  rw [coerce_string_to_schema_type]
  unfold mixedCoercionSpec
  dsimp only
  rw [tryRemainingTypes_eq]
  rcases hI : containsIntegerT types <;> rcases hN : containsNumberT types <;>
    rcases hB : containsBooleanT types <;> rcases hS : containsStringT types <;>
    cases hA1 : (coerceIntegerStr s mn mx).isString <;>
    cases hA2 : (coerceNumberStr s mn mx).isString <;>
    cases hA3 : (coerceBooleanStr s).isString <;>
    cases hA4 : (coerceStringStr s ev fmt pat).isString <;>
    simp only [preferredOrderList, typesContainScalar, coerceByPreferredScalar,
      preferredAccepts, List.filter_cons, List.filter_nil, List.findSome?_cons,
      List.findSome?_nil, hI, hN, hB, hS, hA1, hA2, hA3, hA4, Bool.false_and,
      Bool.true_and, Bool.not_false, Bool.not_true, Bool.false_eq_true, if_true,
      if_false] <;>
    rfl

theorem validateRowsLoop_eq {E : Type} (isValid : JsonValue → Bool)
    (collectErrors : JsonValue → Nat → List E) (jp : Str → Option JsonValue)
    (field_schemas : List (Str × FieldSchema)) :
    ∀ (rows : List (Nat × List (Str × JsonValue)))
      (acc : List (ValidationReportM E)),
      validateRowsLoop isValid collectErrors jp field_schemas rows acc =
        acc ++ rows.filterMap (fun row =>
          let rv := JsonValue.obj row.2
          let rv' := if isValid rv then rv
            else apply_intelligent_type_coercion jp field_schemas rv
          if isValid rv' then none
          else some ⟨row.1, collectErrors rv' row.1, rv'⟩) := by
  intro rows
  induction rows with
  | nil =>
    intro acc
    simp [validateRowsLoop]
  | cons row rest ih =>
    intro acc
    obtain ⟨n, obj⟩ := row
    rw [validateRowsLoop]
    by_cases h1 : isValid (JsonValue.obj obj)
    · have : (if !isValid (JsonValue.obj obj) then
          apply_intelligent_type_coercion jp field_schemas (JsonValue.obj obj)
        else JsonValue.obj obj) = JsonValue.obj obj := by simp [h1]
      rw [this]
      rw [if_pos h1, ih]
      simp [List.filterMap_cons, h1]
    · have : (if !isValid (JsonValue.obj obj) then
          apply_intelligent_type_coercion jp field_schemas (JsonValue.obj obj)
        else JsonValue.obj obj) =
          apply_intelligent_type_coercion jp field_schemas (JsonValue.obj obj) := by
        simp [h1]
      rw [this]
      by_cases h2 : isValid
          (apply_intelligent_type_coercion jp field_schemas (JsonValue.obj obj))
      · rw [if_pos h2, ih]
        simp [List.filterMap_cons, h1, h2]
      · rw [if_neg h2, ih]
        simp [List.filterMap_cons, h1, h2]

/-- C5: for every non-empty list of parsed rows, the whole-sheet validation
pass returns success with the reports accumulated in row order; each row is
validated as-is, an invalid row receives exactly one corrective coercion pass
over its fields with known field schemas and is re-validated exactly once, rows
valid after at most that one extra pass produce no report, and each
still-invalid row contributes exactly one report carrying its once-coerced
data. -/
theorem dkan_importer_c5_validation_pass {E : Type} (isValid : JsonValue → Bool)
    (collectErrors : JsonValue → Nat → List E) (jp : Str → Option JsonValue)
    (field_schemas : List (Str × FieldSchema))
    (rows : List (Nat × List (Str × JsonValue))) (hne : rows ≠ []) :
    validate_excel isValid collectErrors jp field_schemas rows =
      .ok (rows.filterMap fun row =>
        let rv := JsonValue.obj row.2
        let rv' := if isValid rv then rv
          else apply_intelligent_type_coercion jp field_schemas rv
        if isValid rv' then none
        else some ⟨row.1, collectErrors rv' row.1, rv'⟩) := by
  unfold validate_excel
  rw [if_neg (by simpa using hne)]
  rw [validateRowsLoop_eq]
  simp

/-- Witness for `dkan_importer_c5_validation_pass`: a single always-invalid row
still yields success, with one report holding the once-coerced row data. -/
theorem dkan_importer_c5_witness :
    validate_excel (fun _ => false) (fun _ _ => ([] : List Unit)) (fun _ => none)
        [] [(2, [])] =
      .ok [⟨2, [], JsonValue.obj []⟩] :=
  (dkan_importer_c5_validation_pass (fun _ => false) (fun _ _ => ([] : List Unit))
    (fun _ => none) [] [(2, [])] (by simp)).trans rfl

/-- The filtered enumeration underlying `headerPositions` counts occurrences. -/
theorem length_filter_enumFrom (k : Str) (l : List Str) :
    ∀ n, ((List.enumFrom n l).filter fun p => decide (p.2 = k)).length =
      List.countP (fun b => decide (b = k)) l := by
  induction l with
  | nil => intro n; rfl
  | cons a t ih =>
    intro n
    by_cases h : a = k
    · simp [List.enumFrom, List.filter_cons, h, ih, List.countP_cons]
    · simp [List.enumFrom, List.filter_cons, h, ih, List.countP_cons]

/-- A normalized value occurs in its positions list once per occurrence in the
header list. -/
theorem headerPositions_length (normed : List Str) (k : Str) :
    (headerPositions normed k).length = List.countP (fun b => decide (b = k)) normed := by
  unfold headerPositions
  rw [List.length_map]
  exact length_filter_enumFrom k normed 0

/-- Every index/value pair of a list occurs in its enumeration. -/
theorem mem_enumFrom_of_get (l : List Str) :
    ∀ n i (h : i < l.length), (n + i, l.get ⟨i, h⟩) ∈ List.enumFrom n l := by
  induction l with
  | nil => intro n i h; exact absurd h (by simp)
  | cons a t ih =>
    intro n i h
    cases i with
    | zero => simp [List.enumFrom]
    | succ j =>
      refine List.mem_cons_of_mem _ ?_
      have harith : n + (j + 1) = (n + 1) + j := by omega
      rw [harith]
      simpa using ih (n + 1) j (by simpa using Nat.lt_of_succ_lt_succ h)

/-- Every index belongs to the positions list of its own normalized value. -/
theorem mem_headerPositions (normed : List Str) (i : Nat) (h : i < normed.length) :
    i ∈ headerPositions normed (normed.get ⟨i, h⟩) := by
  unfold headerPositions
  refine List.mem_map.mpr ⟨(i, normed.get ⟨i, h⟩), ?_, rfl⟩
  refine List.mem_filter.mpr ⟨?_, by simp⟩
  simpa using mem_enumFrom_of_get normed 0 i h

/-- A contiguous segment of `m` is a contiguous segment of `l ++ m`. -/
theorem withinAppendLeft {x m : Str} (l : Str) (h : x <:+: m) : x <:+: l ++ m := by
  obtain ⟨u, v, huv⟩ := h
  exact ⟨l ++ u, v, by rw [← huv]; simp⟩

/-- A contiguous segment of `m` is a contiguous segment of `m ++ r`. -/
theorem withinAppendRight {x m : Str} (r : Str) (h : x <:+: m) : x <:+: m ++ r := by
  obtain ⟨u, v, huv⟩ := h
  exact ⟨u, v ++ r, by rw [← huv]; simp⟩

/-- A contiguous segment of `m` is a contiguous segment of `l ++ m ++ r`. -/
theorem withinAppendBoth {x m : Str} (l r : Str) (h : x <:+: m) :
    x <:+: l ++ m ++ r := by
  obtain ⟨u, v, huv⟩ := h
  exact ⟨l ++ u, v ++ r, by rw [← huv]; simp⟩

/-- Every element of a list is a contiguous segment of the joined list. -/
theorem mem_within_joinWith (sep : Str) :
    ∀ (l : List Str) (x : Str), x ∈ l → x <:+: joinWith sep l := by
  intro l
  induction l with
  | nil => intro x hx; exact absurd hx (by simp)
  | cons w ws ih =>
    intro x hx
    cases ws with
    | nil =>
      have hxw : x = w := by simpa using hx
      subst hxw
      exact ⟨[], [], by simp [joinWith]⟩
    | cons w2 ws2 =>
      rcases List.mem_cons.mp hx with hxw | hxm
      · subst hxw
        exact ⟨[], sep ++ joinWith sep (w2 :: ws2), by simp [joinWith]⟩
      · obtain ⟨u, v, huv⟩ := ih x hxm
        refine ⟨w ++ sep ++ u, v, ?_⟩
        have hj : joinWith sep (w :: w2 :: ws2) = w ++ sep ++ joinWith sep (w2 :: ws2) := rfl
        rw [hj, ← huv]
        simp

/-- A list has no duplicates exactly when every member occurs at most once. -/
theorem nodup_iff_countP (l : List Str) :
    l.Nodup ↔ ∀ a ∈ l, List.countP (fun b => decide (b = a)) l ≤ 1 := by
  induction l with
  | nil => simp
  | cons a t ih =>
    rw [List.nodup_cons, ih]
    constructor
    · rintro ⟨hat, ht⟩ x hx
      rw [List.countP_cons]
      rcases List.mem_cons.mp hx with rfl | hxt
      · have h0 : List.countP (fun b => decide (b = x)) t = 0 :=
          List.countP_eq_zero.mpr fun b hb => by
            simp only [decide_eq_true_eq]
            rintro rfl
            exact hat hb
        simp [h0]
      · have h1 := ht x hxt
        have ha : (decide (a = x)) = false := by
          simp only [decide_eq_false_iff_not]
          exact fun hax => hat (hax ▸ hxt)
        simp only [ha, Bool.false_eq_true, if_false]
        omega
    · intro H
      constructor
      · intro hat
        have h1 := H a (List.mem_cons_self a t)
        rw [List.countP_cons] at h1
        have hpos : 0 < List.countP (fun b => decide (b = a)) t :=
          List.countP_pos_iff.mpr ⟨a, hat, by simp⟩
        simp only [decide_True, if_true] at h1
        omega
      · intro x hxt
        have h1 := H x (List.mem_cons_of_mem a hxt)
        rw [List.countP_cons] at h1
        omega

/-- The duplicate-group list of `check_header_duplicates` is empty exactly when
the normalized headers are pairwise distinct. -/
theorem nodup_iff_no_dup_groups (normed : List Str) :
    ((normed.dedup.map fun k => (k, headerPositions normed k)).filter
        fun g => decide (1 < g.2.length)) = [] ↔ normed.Nodup := by
  rw [List.filter_eq_nil_iff]
  rw [nodup_iff_countP]
  constructor
  · intro h a ha
    have := h (a, headerPositions normed a)
      (List.mem_map.mpr ⟨a, List.mem_dedup.mpr ha, rfl⟩)
    simp only [headerPositions_length, decide_eq_true_eq] at this
    omega
  · intro h g hg
    obtain ⟨k, hk, rfl⟩ := List.mem_map.mp hg
    simp only [headerPositions_length, decide_eq_true_eq]
    have := h k (List.mem_dedup.mp hk)
    omega

/-- **C6.** Header duplicate checking normalizes every label and groups labels by
normalized value: it succeeds exactly when the normalized labels are pairwise
distinct (including the empty list), and on failure the message contains the
header text "Excel file contains duplicate column headers" and, for every
occurrence of every duplicated label (not just the first), the 1-based column
position of that occurrence. -/
theorem dkan_importer_c6_duplicate_headers (headers : List Str) :
    (check_header_duplicates headers = .ok () ↔
      (headers.map normalize_string_lib).Nodup) ∧
    ∀ e, check_header_duplicates headers = .error e →
      ("Excel file contains duplicate column headers".toList <:+: e) ∧
      ∀ i, (h : i < headers.length) →
        1 < List.countP
          (fun b => decide (b = normalize_string_lib (headers.get ⟨i, h⟩)))
          (headers.map normalize_string_lib) →
        ("column ".toList ++ natRepr (i + 1)) <:+: e := by
  have hmain := nodup_iff_no_dup_groups (headers.map normalize_string_lib)
  unfold check_header_duplicates
  dsimp only
  constructor
  · rw [← hmain]
    split
    · rename_i hc
      simp only [List.isEmpty_iff, List.map_eq_nil_iff] at hc
      simp [hc]
    · rename_i hc
      simp only [List.isEmpty_iff, List.map_eq_nil_iff] at hc
      constructor
      · intro hok; exact Except.noConfusion hok
      · intro hnil; exact absurd hnil hc
  · intro e he
    split at he
    · exact Except.noConfusion he
    · injection he with he'
      subst he'
      constructor
      · have hXH : "Excel file contains duplicate column headers".toList <:+:
            "Excel file contains duplicate column headers:\n".toList :=
          ⟨[], ":\n".toList, by decide⟩
        exact withinAppendRight _ (withinAppendRight _ hXH)
      · intro i h hcount
        have hlen : i < (List.map normalize_string_lib headers).length := by
          simpa using h
        have hget : (List.map normalize_string_lib headers).get ⟨i, hlen⟩ =
            normalize_string_lib (headers.get ⟨i, h⟩) := by
          simp [List.getElem_map]
        have hpos : i ∈ headerPositions (List.map normalize_string_lib headers)
            (normalize_string_lib (headers.get ⟨i, h⟩)) := by
          have hmp := mem_headerPositions (List.map normalize_string_lib headers) i hlen
          rwa [hget] at hmp
        have hkmem : normalize_string_lib (headers.get ⟨i, h⟩) ∈
            List.map normalize_string_lib headers := by
          rw [← hget]
          exact List.get_mem _ _ _
        have hgmem : (normalize_string_lib (headers.get ⟨i, h⟩),
            headerPositions (List.map normalize_string_lib headers)
              (normalize_string_lib (headers.get ⟨i, h⟩))) ∈
            List.filter (fun g => decide (1 < g.2.length))
              (List.map
                (fun k => (k, headerPositions (List.map normalize_string_lib headers) k))
                (List.map normalize_string_lib headers).dedup) := by
          refine List.mem_filter.mpr
            ⟨List.mem_map.mpr ⟨_, List.mem_dedup.mpr hkmem, rfl⟩, ?_⟩
          simp only [headerPositions_length, decide_eq_true_eq]
          exact hcount
        have h1 : ("column ".toList ++ natRepr (i + 1)) ∈
            List.map (fun p => "column ".toList ++ natRepr (p + 1))
              (headerPositions (List.map normalize_string_lib headers)
                (normalize_string_lib (headers.get ⟨i, h⟩))) :=
          List.mem_map.mpr ⟨i, hpos, rfl⟩
        have h2 := mem_within_joinWith ", ".toList _ _ h1
        refine withinAppendRight _ (withinAppendLeft _ ?_)
        exact (withinAppendLeft "  • ".toList (withinAppendLeft _ h2)).trans
          (mem_within_joinWith _ _ _
            (List.mem_map.mpr ⟨_, List.mem_map.mpr ⟨_, hgmem, rfl⟩, rfl⟩))

/-- Witness for C6, scenario E: the empty header list passes, and for
`["Header A", "Header B", "Header A"]` the check fails with a message containing
the header text, "column 1" and "column 3". -/
theorem dkan_importer_c6_witness :
    check_header_duplicates [] = .ok () ∧
    ("Excel file contains duplicate column headers".toList <:+:
      exceptErrorMsg (check_header_duplicates
        ["Header A".toList, "Header B".toList, "Header A".toList])) ∧
    (("column ".toList ++ natRepr 1) <:+:
      exceptErrorMsg (check_header_duplicates
        ["Header A".toList, "Header B".toList, "Header A".toList])) ∧
    (("column ".toList ++ natRepr 3) <:+:
      exceptErrorMsg (check_header_duplicates
        ["Header A".toList, "Header B".toList, "Header A".toList])) := by
  have herr : check_header_duplicates
      ["Header A".toList, "Header B".toList, "Header A".toList] =
      .error (exceptErrorMsg (check_header_duplicates
        ["Header A".toList, "Header B".toList, "Header A".toList])) := rfl
  have h2 := (dkan_importer_c6_duplicate_headers
    ["Header A".toList, "Header B".toList, "Header A".toList]).2 _ herr
  exact ⟨(dkan_importer_c6_duplicate_headers []).1.mpr List.nodup_nil,
    h2.1, h2.2 0 (by decide) (by decide), h2.2 2 (by decide) (by decide)⟩

/-- Accumulator equation: a pending word is emitted followed by the split of the rest. -/
theorem splitWhitespaceAux_acc (l : Str) :
    ∀ acc, acc ≠ [] →
      splitWhitespaceAux l acc =
        (acc.reverse ++ l.takeWhile fun d => !isWhitespaceChar d) ::
          splitWhitespace (l.dropWhile fun d => !isWhitespaceChar d) := by
  induction l with
  | nil =>
    intro acc hacc
    simp [splitWhitespaceAux, splitWhitespace, List.isEmpty_iff, hacc]
  | cons c cs ih =>
    intro acc hacc
    by_cases hws : isWhitespaceChar c = true
    · simp only [splitWhitespaceAux, hws, if_true, List.isEmpty_iff, hacc, if_neg,
        List.takeWhile_cons, Bool.not_true, Bool.false_eq_true, List.dropWhile_cons]
      rw [if_neg (by simp [List.isEmpty_iff, hacc])]
      simp [splitWhitespace, splitWhitespaceAux, hws]
    · have hws' : isWhitespaceChar c = false := by
        cases h : isWhitespaceChar c
        · rfl
        · exact absurd h hws
      simp only [splitWhitespaceAux, hws', Bool.false_eq_true, if_false,
        List.takeWhile_cons, Bool.not_false, if_true, List.dropWhile_cons]
      rw [ih (c :: acc) (by simp)]
      simp

/-- Splitting the empty string yields no words. -/
theorem splitWhitespace_nil : splitWhitespace [] = [] := rfl

/-- A leading whitespace character is skipped by the split. -/
theorem splitWhitespace_ws {c : Char} (cs : Str) (h : isWhitespaceChar c = true) :
    splitWhitespace (c :: cs) = splitWhitespace cs := by
  simp [splitWhitespace, splitWhitespaceAux, h]

/-- A leading non-whitespace character starts a maximal word. -/
theorem splitWhitespace_nonws {c : Char} (cs : Str) (h : isWhitespaceChar c = false) :
    splitWhitespace (c :: cs) =
      (c :: cs.takeWhile fun d => !isWhitespaceChar d) ::
        splitWhitespace (cs.dropWhile fun d => !isWhitespaceChar d) := by
  show splitWhitespaceAux (c :: cs) [] = _
  simp only [splitWhitespaceAux, h, Bool.false_eq_true, if_false]
  rw [splitWhitespaceAux_acc cs [c] (by simp)]
  simp

/-- Words produced by the accumulator pass are nonempty, whitespace-free, and
drawn from the accumulator or the input. -/
theorem splitWhitespaceAux_good (l : Str) :
    ∀ acc, (∀ c ∈ acc, isWhitespaceChar c = false ∧ c ∈ acc) →
      ∀ w ∈ splitWhitespaceAux l acc,
        w ≠ [] ∧ ∀ c ∈ w, isWhitespaceChar c = false ∧ (c ∈ acc ∨ c ∈ l) := by
  induction l with
  | nil =>
    intro acc hacc w hw
    by_cases he : acc.isEmpty
    · simp [splitWhitespaceAux, he] at hw
    · simp only [splitWhitespaceAux, he, Bool.false_eq_true, if_false] at hw
      simp only [List.mem_singleton] at hw
      subst hw
      refine ⟨by simpa [List.isEmpty_iff] using he, fun c hc => ?_⟩
      rw [List.mem_reverse] at hc
      exact ⟨(hacc c hc).1, Or.inl hc⟩
  | cons a t ih =>
    intro acc hacc w hw
    by_cases hws : isWhitespaceChar a = true
    · by_cases he : acc.isEmpty
      · simp only [splitWhitespaceAux, hws, if_true, he] at hw
        have := ih [] (by simp) w hw
        exact ⟨this.1, fun c hc => ⟨(this.2 c hc).1, by
          rcases (this.2 c hc).2 with h | h
          · exact absurd h (by simp)
          · exact Or.inr (List.mem_cons_of_mem a h)⟩⟩
      · simp only [splitWhitespaceAux, hws, if_true, he, Bool.false_eq_true,
          if_false, List.mem_cons] at hw
        rcases hw with rfl | hw
        · refine ⟨by simpa [List.isEmpty_iff] using he, fun c hc => ?_⟩
          rw [List.mem_reverse] at hc
          exact ⟨(hacc c hc).1, Or.inl hc⟩
        · have := ih [] (by simp) w hw
          exact ⟨this.1, fun c hc => ⟨(this.2 c hc).1, by
            rcases (this.2 c hc).2 with h | h
            · exact absurd h (by simp)
            · exact Or.inr (List.mem_cons_of_mem a h)⟩⟩
    · have hws' : isWhitespaceChar a = false := by
        cases h : isWhitespaceChar a
        · rfl
        · exact absurd h hws
      simp only [splitWhitespaceAux, hws', Bool.false_eq_true, if_false] at hw
      have := ih (a :: acc)
        (by
          intro c hc
          rcases List.mem_cons.mp hc with rfl | hc
          · exact ⟨hws', List.mem_cons_self _ _⟩
          · exact ⟨(hacc c hc).1, List.mem_cons_of_mem _ hc⟩) w hw
      refine ⟨this.1, fun c hc => ⟨(this.2 c hc).1, ?_⟩⟩
      rcases (this.2 c hc).2 with h | h
      · rcases List.mem_cons.mp h with rfl | h
        · exact Or.inr (List.mem_cons_self _ _)
        · exact Or.inl h
      · exact Or.inr (List.mem_cons_of_mem a h)

/-- Words of `splitWhitespace` are nonempty, whitespace-free, and drawn from the
input. -/
theorem splitWhitespace_good (l : Str) :
    ∀ w ∈ splitWhitespace l,
      w ≠ [] ∧ ∀ c ∈ w, isWhitespaceChar c = false ∧ c ∈ l := by
  intro w hw
  have := splitWhitespaceAux_good l [] (by simp) w hw
  refine ⟨this.1, fun c hc => ⟨(this.2 c hc).1, ?_⟩⟩
  rcases (this.2 c hc).2 with h | h
  · exact absurd h (by simp)
  · exact h

/-- The control-to-space pass leaves no control characters. -/
theorem mapControl_no_control (l : Str) :
    ∀ c ∈ mapControlToSpace l, isControlChar c = false := by
  intro c hc
  unfold mapControlToSpace at hc
  obtain ⟨a, _, ha⟩ := List.mem_map.mp hc
  by_cases h : isControlChar a = true
  · rw [if_pos h] at ha
    subst ha
    decide
  · rw [if_neg h] at ha
    subst ha
    cases hb : isControlChar a
    · rfl
    · exact absurd hb h

/-- The control-to-space pass fixes control-free strings. -/
theorem mapControl_id (l : Str) (h : ∀ c ∈ l, isControlChar c = false) :
    mapControlToSpace l = l := by
  unfold mapControlToSpace
  conv_rhs => rw [← List.map_id l]
  refine List.map_congr_left fun c hc => ?_
  simp [h c hc]

/-- Every character of a joined word list is a space or a word character. -/
theorem mem_joinWithSpace : ∀ (ws : List Str) (c : Char), c ∈ joinWithSpace ws →
    c = ' ' ∨ ∃ w ∈ ws, c ∈ w := by
  intro ws
  induction ws with
  | nil => intro c hc; exact absurd hc (by simp [joinWithSpace])
  | cons w rest ih =>
    intro c hc
    cases rest with
    | nil =>
      right
      exact ⟨w, List.mem_cons_self _ _, hc⟩
    | cons w2 rest2 =>
      have hj : joinWithSpace (w :: w2 :: rest2) = w ++ ' ' :: joinWithSpace (w2 :: rest2) := rfl
      rw [hj] at hc
      rcases List.mem_append.mp hc with h | h
      · exact Or.inr ⟨w, List.mem_cons_self _ _, h⟩
      · rcases List.mem_cons.mp h with rfl | h
        · exact Or.inl rfl
        · rcases ih c h with h | ⟨w3, hw3, hc3⟩
          · exact Or.inl h
          · exact Or.inr ⟨w3, List.mem_cons_of_mem _ hw3, hc3⟩

/-- The head of an append is the head of its nonempty left part. -/
theorem head?_append_left {a : Str} (b : Str) (ha : a ≠ []) :
    (a ++ b).head? = a.head? := by
  cases a with
  | nil => exact absurd rfl ha
  | cons x xs => rfl

/-- The last element of an append is the last of its nonempty right part. -/
theorem getLast?_append_right (a : Str) {b : Str} (hb : b ≠ []) :
    (a ++ b).getLast? = b.getLast? := by
  rw [List.getLast?_eq_head?_reverse, List.getLast?_eq_head?_reverse, List.reverse_append]
  exact head?_append_left a.reverse (by simpa using hb)

/-- The head is a member. -/
theorem mem_of_head? {l : Str} {c : Char} (h : l.head? = some c) : c ∈ l := by
  cases l with
  | nil => exact absurd h (by simp)
  | cons x xs =>
    simp only [List.head?_cons, Option.some.injEq] at h
    subst h
    exact List.mem_cons_self _ _

/-- The last element is a member. -/
theorem mem_of_getLast? {l : Str} {c : Char} (h : l.getLast? = some c) : c ∈ l := by
  rw [List.getLast?_eq_head?_reverse] at h
  have := mem_of_head? h
  rwa [List.mem_reverse] at this

/-- A space-free string has no double space. -/
theorem nds_of_nospace : ∀ l : Str, (∀ c ∈ l, ¬(c = ' ')) → noDoubleSpace l = true := by
  intro l
  induction l with
  | nil => intro _; rfl
  | cons a t ih =>
    intro h
    cases t with
    | nil => rfl
    | cons b t2 =>
      have hb : ¬(b = ' ') := h b (List.mem_cons_of_mem _ (List.mem_cons_self _ _))
      simp only [noDoubleSpace, Bool.and_eq_true, Bool.not_eq_true',
        Bool.and_eq_false_iff, decide_eq_false_iff_not]
      exact ⟨Or.inr hb, ih fun c hc => h c (List.mem_cons_of_mem _ hc)⟩

/-- `noDoubleSpace` restricts to the right part of an append. -/
theorem nds_suffix : ∀ (a b : Str), noDoubleSpace (a ++ b) = true → noDoubleSpace b = true := by
  intro a
  induction a with
  | nil => intro b h; exact h
  | cons x xs ih =>
    intro b h
    refine ih b ?_
    cases hxs : xs ++ b with
    | nil => rfl
    | cons y t =>
      have hyt : noDoubleSpace (x :: y :: t) = true := by rw [← hxs]; exact h
      simp only [noDoubleSpace, Bool.and_eq_true] at hyt
      exact hyt.2

/-- `noDoubleSpace` restricts to the left part of an append. -/
theorem nds_front : ∀ (a b : Str), noDoubleSpace (a ++ b) = true → noDoubleSpace a = true := by
  intro a
  induction a with
  | nil => intro b _; rfl
  | cons x xs ih =>
    intro b h
    cases hxs : xs with
    | nil => rfl
    | cons y t =>
      subst hxs
      simp only [List.cons_append, noDoubleSpace, Bool.and_eq_true] at h
      have h2 := ih b h.2
      simp only [noDoubleSpace, Bool.and_eq_true]
      exact ⟨h.1, h2⟩

/-- Appending a space-free string preserves `noDoubleSpace`. -/
theorem nds_append_nospace : ∀ (a b : Str), noDoubleSpace a = true →
    (∀ c ∈ b, ¬(c = ' ')) → noDoubleSpace (a ++ b) = true := by
  intro a
  induction a with
  | nil => intro b _ hb; exact nds_of_nospace b hb
  | cons x xs ih =>
    intro b ha hb
    cases xs with
    | nil =>
      cases b with
      | nil => rfl
      | cons y t =>
        have hy : ¬(y = ' ') := hb y (List.mem_cons_self _ _)
        simp only [List.singleton_append, noDoubleSpace, Bool.and_eq_true,
          Bool.not_eq_true', Bool.and_eq_false_iff, decide_eq_false_iff_not]
        exact ⟨Or.inr hy, by
          have := nds_of_nospace (y :: t) hb
          simpa [noDoubleSpace] using this⟩
    | cons y t =>
      simp only [noDoubleSpace, Bool.and_eq_true] at ha
      have h2 := ih b ha.2 hb
      simp only [List.cons_append, noDoubleSpace, Bool.and_eq_true] at h2 ⊢
      exact ⟨ha.1, h2⟩

/-- `noDoubleSpace` is preserved by appends whose boundary pair is not two spaces. -/
theorem nds_append : ∀ (a b : Str), noDoubleSpace a = true → noDoubleSpace b = true →
    (∀ x y, a.getLast? = some x → b.head? = some y → ¬(x = ' ' ∧ y = ' ')) →
    noDoubleSpace (a ++ b) = true := by
  intro a
  induction a with
  | nil => intro b _ hb _; exact hb
  | cons x xs ih =>
    intro b ha hb hbound
    cases hxs : xs with
    | nil =>
      subst hxs
      cases hb' : b with
      | nil => simpa using ha
      | cons y t =>
        subst hb'
        simp only [List.singleton_append, noDoubleSpace, Bool.and_eq_true,
          Bool.not_eq_true', Bool.and_eq_false_iff, decide_eq_false_iff_not]
        refine ⟨?_, hb⟩
        by_cases hx : x = ' '
        · by_cases hy : y = ' '
          · exact absurd ⟨hx, hy⟩ (hbound x y rfl rfl)
          · exact Or.inr hy
        · exact Or.inl hx
    | cons z zs =>
      subst hxs
      simp only [noDoubleSpace, Bool.and_eq_true] at ha
      have hrec := ih b ha.2 hb (by
        intro u v hu hv
        refine hbound u v ?_ hv
        rw [List.getLast?_eq_head?_reverse] at hu ⊢
        rw [List.reverse_cons, head?_append_left _ (by simp)]
        exact hu)
      simp only [List.cons_append] at hrec ⊢
      simp only [noDoubleSpace, Bool.and_eq_true]
      exact ⟨ha.1, hrec⟩

/-- Joining nonempty whitespace-free words yields no double space and no
whitespace at either end. -/
theorem joinWithSpace_props : ∀ (ws : List Str),
    (∀ w ∈ ws, w ≠ [] ∧ ∀ c ∈ w, isWhitespaceChar c = false) →
    noDoubleSpace (joinWithSpace ws) = true ∧
    (∀ c, (joinWithSpace ws).head? = some c → isWhitespaceChar c = false) ∧
    (∀ c, (joinWithSpace ws).getLast? = some c → isWhitespaceChar c = false) := by
  intro ws
  induction ws with
  | nil => intro _; exact ⟨rfl, by simp [joinWithSpace], by simp [joinWithSpace]⟩
  | cons w rest ih =>
    intro hg
    have hw := hg w (List.mem_cons_self _ _)
    cases rest with
    | nil =>
      refine ⟨nds_of_nospace w fun c hc => ?_, fun c hc => ?_, fun c hc => ?_⟩
      · intro hsp
        have := hw.2 c hc
        rw [hsp] at this
        exact absurd this (by decide)
      · exact hw.2 c (mem_of_head? hc)
      · exact hw.2 c (mem_of_getLast? hc)
    | cons w2 rest2 =>
      have ihr := ih fun v hv => hg v (List.mem_cons_of_mem _ hv)
      have hw2 := hg w2 (List.mem_cons_of_mem _ (List.mem_cons_self _ _))
      have hj : joinWithSpace (w :: w2 :: rest2) =
          w ++ ' ' :: joinWithSpace (w2 :: rest2) := rfl
      have hj2ne : joinWithSpace (w2 :: rest2) ≠ [] := by
        cases rest2 with
        | nil => exact hw2.1
        | cons w3 rest3 =>
          have : joinWithSpace (w2 :: w3 :: rest3) =
              w2 ++ ' ' :: joinWithSpace (w3 :: rest3) := rfl
          rw [this]
          simp
      rw [hj]
      obtain ⟨c2, t2, hc2⟩ : ∃ c2 t2, joinWithSpace (w2 :: rest2) = c2 :: t2 := by
        cases hcase : joinWithSpace (w2 :: rest2) with
        | nil => exact absurd hcase hj2ne
        | cons a b => exact ⟨a, b, rfl⟩
      have hc2ws : isWhitespaceChar c2 = false := ihr.2.1 c2 (by rw [hc2]; rfl)
      refine ⟨?_, ?_, ?_⟩
      · refine nds_append w (' ' :: joinWithSpace (w2 :: rest2))
          (nds_of_nospace w fun c hc hsp => ?_) ?_ ?_
        · have := hw.2 c hc
          rw [hsp] at this
          exact absurd this (by decide)
        · rw [hc2]
          simp only [noDoubleSpace, Bool.and_eq_true, Bool.not_eq_true',
            Bool.and_eq_false_iff, decide_eq_false_iff_not]
          constructor
          · refine Or.inr fun hsp => ?_
            rw [hsp] at hc2ws
            exact absurd hc2ws (by decide)
          · have := ihr.1
            rw [hc2] at this
            exact this
        · intro x y hx hy hxy
          have := hw.2 x (mem_of_getLast? hx)
          rw [hxy.1] at this
          exact absurd this (by decide)
      · intro c hc
        rw [head?_append_left _ hw.1] at hc
        exact hw.2 c (mem_of_head? hc)
      · intro c hc
        rw [getLast?_append_right w (by simp)] at hc
        rw [hc2] at hc
        have : (' ' :: c2 :: t2).getLast? = (c2 :: t2).getLast? := by
          rw [show (' ' :: c2 :: t2) = [' '] ++ c2 :: t2 from rfl,
            getLast?_append_right [' '] (by simp)]
        rw [this, ← hc2] at hc
        exact ihr.2.2 c hc

/-- Trimming fixes strings with no whitespace at either end. -/
theorem trim_id (l : Str)
    (hh : ∀ c, l.head? = some c → isWhitespaceChar c = false)
    (hl : ∀ c, l.getLast? = some c → isWhitespaceChar c = false) :
    trimWs l = l := by
  unfold trimWs trimStartWs trimEndWs
  have h1 : l.dropWhile isWhitespaceChar = l := by
    cases l with
    | nil => rfl
    | cons x xs =>
      rw [List.dropWhile_cons, if_neg]
      rw [hh x rfl]
      simp
  rw [h1]
  have h2 : l.reverse.dropWhile isWhitespaceChar = l.reverse := by
    cases hr : l.reverse with
    | nil => rfl
    | cons x xs =>
      rw [List.dropWhile_cons, if_neg]
      have : l.getLast? = some x := by
        rw [List.getLast?_eq_head?_reverse, hr]
        rfl
      rw [hl x this]
      simp
  rw [h2, List.reverse_reverse]

/-- The join equation for a head word followed by further words. -/
theorem join_cons_ne (w : Str) {l : List Str} (h : l ≠ []) :
    joinWithSpace (w :: l) = w ++ ' ' :: joinWithSpace l := by
  cases l with
  | nil => exact absurd rfl h
  | cons a b => rfl

/-- Re-joining the whitespace split reconstructs any string whose whitespace is
single interior spaces. -/
theorem join_split_bounded : ∀ (n : Nat) (x : Str), x.length ≤ n →
    (∀ c ∈ x, isWhitespaceChar c = true → c = ' ') →
    noDoubleSpace x = true →
    (∀ c, x.head? = some c → ¬(c = ' ')) →
    (∀ c, x.getLast? = some c → ¬(c = ' ')) →
    joinWithSpace (splitWhitespace x) = x := by
  intro n
  induction n with
  | zero =>
    intro x hlen _ _ _ _
    have hx : x = [] := by
      cases x with
      | nil => rfl
      | cons a t => exact absurd hlen (by simp)
    subst hx
    rfl
  | succ n ih =>
    intro x hlen h2 h3 h4 h5
    cases x with
    | nil => rfl
    | cons c cs =>
      have hc : ¬(c = ' ') := h4 c rfl
      have hcws : isWhitespaceChar c = false := by
        cases hw : isWhitespaceChar c
        · rfl
        · exact absurd (h2 c (List.mem_cons_self _ _) hw) hc
      rw [splitWhitespace_nonws cs hcws]
      have hsplit := List.takeWhile_append_dropWhile
        (p := fun d => !isWhitespaceChar d) (l := cs)
      cases hdw : cs.dropWhile (fun d => !isWhitespaceChar d) with
      | nil =>
        have htw : cs.takeWhile (fun d => !isWhitespaceChar d) = cs := by
          conv_rhs => rw [← hsplit]
          rw [hdw, List.append_nil]
        rw [splitWhitespace_nil]
        show c :: cs.takeWhile (fun d => !isWhitespaceChar d) = c :: cs
        rw [htw]
      | cons d ds =>
        have hcs : cs = cs.takeWhile (fun e => !isWhitespaceChar e) ++ d :: ds := by
          rw [← hdw, hsplit]
        have hd : isWhitespaceChar d = true := by
          have hh := List.head?_dropWhile_not (p := fun e => !isWhitespaceChar e) (l := cs)
          rw [hdw] at hh
          simpa using hh
        have hdsp : d = ' ' := by
          refine h2 d (List.mem_cons_of_mem _ ?_) hd
          rw [hcs]
          exact List.mem_append_right _ (List.mem_cons_self _ _)
        subst hdsp
        cases hds : ds with
        | nil =>
          exfalso
          refine h5 ' ' ?_ rfl
          have hx : c :: cs = (c :: cs.takeWhile (fun e => !isWhitespaceChar e)) ++ [' '] := by
            rw [hds] at hcs
            rw [List.cons_append]
            congr 1
          rw [hx, getLast?_append_right _ (by simp)]
          rfl
        | cons e es =>
          subst hds
          have hxshape : c :: cs =
              ((c :: cs.takeWhile (fun g => !isWhitespaceChar g)) ++ [' ']) ++ (e :: es) := by
            rw [List.append_assoc, List.cons_append]
            congr 1
          have hesp : ¬(e = ' ') := by
            have hsuf : noDoubleSpace (' ' :: e :: es) = true := by
              refine nds_suffix (c :: cs.takeWhile fun g => !isWhitespaceChar g) _ ?_
              have hx2 : (c :: cs.takeWhile fun g => !isWhitespaceChar g) ++ ' ' :: e :: es =
                  c :: cs := by
                rw [hxshape, List.append_assoc]
                rfl
              rw [hx2]
              exact h3
            simp only [noDoubleSpace, Bool.and_eq_true, Bool.not_eq_true',
              Bool.and_eq_false_iff, decide_eq_false_iff_not] at hsuf
            rcases hsuf.1 with h | h
            · exact absurd trivial h
            · exact h
          have hews : isWhitespaceChar e = false := by
            cases hw : isWhitespaceChar e
            · rfl
            · refine absurd (h2 e (List.mem_cons_of_mem _ ?_) hw) hesp
              rw [hcs]
              exact List.mem_append_right _ (List.mem_cons_of_mem _ (List.mem_cons_self _ _))
          have hlen2 : (e :: es).length ≤ n := by
            have := congrArg List.length hcs
            simp only [List.length_append, List.length_cons] at this hlen ⊢
            omega
          have hih := ih (e :: es) hlen2
            (fun g hg hw => h2 g (by
              refine List.mem_cons_of_mem _ ?_
              rw [hcs]
              exact List.mem_append_right _ (List.mem_cons_of_mem _ hg)) hw)
            (by
              refine nds_suffix ((c :: cs.takeWhile fun g => !isWhitespaceChar g) ++ [' ']) _ ?_
              rw [← hxshape]
              exact h3)
            (by
              intro g hg
              simp only [List.head?_cons, Option.some.injEq] at hg
              subst hg
              exact hesp)
            (by
              intro g hg
              refine h5 g ?_
              rw [hxshape, getLast?_append_right _ (by simp)]
              exact hg)
          rw [splitWhitespace_ws (e :: es) hd]
          have hne : splitWhitespace (e :: es) ≠ [] := by
            rw [splitWhitespace_nonws es hews]
            simp
          rw [join_cons_ne _ hne, hih, List.cons_append]
          congr 1
          exact hcs.symm

/-- The base normalization fixes every string in normal form. -/
theorem normalize_fixed_of_normal (x : Str) (h : isNormalizedStr x = true) :
    normalize_string_model x = x := by
  simp only [isNormalizedStr, Bool.and_eq_true, List.all_eq_true, Bool.not_eq_true',
    beq_eq_false_iff_ne, ne_eq] at h
  obtain ⟨⟨⟨hall, hh⟩, hl⟩, hnds⟩ := h
  have hctl : ∀ c ∈ x, isControlChar c = false := by
    intro c hc
    have hp := hall c hc
    simp only [Bool.and_eq_true, Bool.not_eq_true'] at hp
    exact hp.1
  have hws : ∀ c ∈ x, isWhitespaceChar c = true → c = ' ' := by
    intro c hc hw
    have hp := hall c hc
    simp only [Bool.and_eq_true, Bool.not_eq_true', Bool.or_eq_true, decide_eq_true_eq] at hp
    rcases hp.2 with h1 | h1
    · rw [h1] at hw
      cases hw
    · exact h1
  have hhead : ∀ c, x.head? = some c → ¬(c = ' ') := by
    intro c hc hsp
    subst hsp
    exact hh hc
  have hlast : ∀ c, x.getLast? = some c → ¬(c = ' ') := by
    intro c hc hsp
    subst hsp
    exact hl hc
  unfold normalize_string_model
  rw [mapControl_id x hctl]
  rw [join_split_bounded x.length x le_rfl hws hnds hhead hlast]
  refine trim_id x (fun c hc => ?_) (fun c hc => ?_)
  · cases hw : isWhitespaceChar c
    · rfl
    · exact absurd (hws c (mem_of_head? hc) hw) (hhead c hc)
  · cases hw : isWhitespaceChar c
    · rfl
    · exact absurd (hws c (mem_of_getLast? hc) hw) (hlast c hc)

/-- The base normalization always produces a string in normal form. -/
theorem normalize_is_normal (s : Str) :
    isNormalizedStr (normalize_string_model s) = true := by
  unfold normalize_string_model
  have hgood := splitWhitespace_good (mapControlToSpace s)
  have hg : ∀ w ∈ splitWhitespace (mapControlToSpace s),
      w ≠ [] ∧ ∀ c ∈ w, isWhitespaceChar c = false :=
    fun w hw => ⟨(hgood w hw).1, fun c hc => ((hgood w hw).2 c hc).1⟩
  have hjp := joinWithSpace_props _ hg
  rw [trim_id _ hjp.2.1 hjp.2.2]
  simp only [isNormalizedStr, Bool.and_eq_true, List.all_eq_true, Bool.not_eq_true',
    beq_eq_false_iff_ne, ne_eq]
  refine ⟨⟨⟨fun c hc => ?_, fun heq => ?_⟩, fun heq => ?_⟩, hjp.1⟩
  · rcases mem_joinWithSpace _ c hc with rfl | ⟨w, hw, hcw⟩
    · decide
    · have h1 := ((hgood w hw).2 c hcw).1
      have h2 := mapControl_no_control s c ((hgood w hw).2 c hcw).2
      simp [h1, h2]
  · have := hjp.2.1 ' ' heq
    exact absurd this (by decide)
  · have := hjp.2.2 ' ' heq
    exact absurd this (by decide)

/-- The asterisk-stripping loop keeps a leading `'*'`. -/
theorem dropSpacesAfterAsterisks_star (l : Str) :
    dropSpacesAfterAsterisks ('*' :: l) = '*' :: dropSpacesAfterAsterisks l := by
  simp [dropSpacesAfterAsterisks]

/-- The asterisk-stripping loop is idempotent. -/
theorem dropSpacesAfterAsterisks_idem : ∀ l : Str,
    dropSpacesAfterAsterisks (dropSpacesAfterAsterisks l) = dropSpacesAfterAsterisks l := by
  intro l
  induction l with
  | nil => rfl
  | cons c cs ih =>
    by_cases h1 : c = '*'
    · subst h1
      rw [dropSpacesAfterAsterisks_star, dropSpacesAfterAsterisks_star, ih]
    · by_cases h2 : c = ' '
      · subst h2
        have e1 : dropSpacesAfterAsterisks (' ' :: cs) = dropSpacesAfterAsterisks cs := by
          simp [dropSpacesAfterAsterisks]
        rw [e1, ih]
      · have e1 : dropSpacesAfterAsterisks (c :: cs) = c :: cs := by
          simp [dropSpacesAfterAsterisks, h1, h2]
        rw [e1, e1]

/-- The asterisk-stripping loop keeps the asterisks of the leading
asterisk-or-space run and the untouched remainder. -/
theorem dropSpacesAfterAsterisks_decomp : ∀ l : Str,
    dropSpacesAfterAsterisks l =
      (l.takeWhile fun c => decide (c = '*') || decide (c = ' ')).filter
          (fun c => decide (c = '*')) ++
        l.dropWhile fun c => decide (c = '*') || decide (c = ' ') := by
  intro l
  induction l with
  | nil => rfl
  | cons c cs ih =>
    by_cases h1 : c = '*'
    · subst h1
      rw [dropSpacesAfterAsterisks_star, ih]
      simp [List.takeWhile_cons, List.dropWhile_cons, List.filter_cons]
    · by_cases h2 : c = ' '
      · subst h2
        have e1 : dropSpacesAfterAsterisks (' ' :: cs) = dropSpacesAfterAsterisks cs := by
          simp [dropSpacesAfterAsterisks]
        rw [e1, ih]
        simp [List.takeWhile_cons, List.dropWhile_cons, List.filter_cons]
      · have e1 : dropSpacesAfterAsterisks (c :: cs) = c :: cs := by
          simp [dropSpacesAfterAsterisks, h1, h2]
        rw [e1]
        simp [List.takeWhile_cons, List.dropWhile_cons, h1, h2]

/-- Replacing the reversed leading run of a normal-form string by asterisks
preserves normal form. -/
theorem star_strip_normal (y T D F : Str)
    (hyshape : y = D.reverse ++ T.reverse)
    (hy : isNormalizedStr y = true)
    (hFall : ∀ c ∈ F, c = '*')
    (hFne : F ≠ []) :
    isNormalizedStr (D.reverse ++ F.reverse) = true := by
  simp only [isNormalizedStr, Bool.and_eq_true, List.all_eq_true, Bool.not_eq_true',
    beq_eq_false_iff_ne, ne_eq] at hy
  obtain ⟨⟨⟨hall, hh⟩, hl⟩, hnds⟩ := hy
  simp only [isNormalizedStr, Bool.and_eq_true, List.all_eq_true, Bool.not_eq_true',
    beq_eq_false_iff_ne, ne_eq]
  refine ⟨⟨⟨fun c hc => ?_, fun heq => ?_⟩, fun heq => ?_⟩, ?_⟩
  · rcases List.mem_append.mp hc with h | h
    · refine hall c ?_
      rw [hyshape]
      exact List.mem_append_left _ h
    · rw [hFall c (List.mem_reverse.mp h)]
      decide
  · cases D with
    | nil =>
      simp only [List.reverse_nil, List.nil_append] at heq
      have := hFall ' ' (List.mem_reverse.mp (mem_of_head? heq))
      exact absurd this (by decide)
    | cons d D2 =>
      rw [head?_append_left _ (by simp)] at heq
      refine hh ?_
      rw [hyshape, head?_append_left _ (by simp)]
      exact heq
  · rw [getLast?_append_right _ (by simpa using hFne)] at heq
    have := hFall ' ' (List.mem_reverse.mp (mem_of_getLast? heq))
    exact absurd this (by decide)
  · refine nds_append_nospace D.reverse F.reverse ?_ ?_
    · rw [hyshape] at hnds
      exact nds_front _ _ hnds
    · intro c hc hsp
      have := hFall c (List.mem_reverse.mp hc)
      rw [hsp] at this
      exact absurd this (by decide)

/-- For a normal-form string ending in an asterisk, the asterisk-stripped result
is in normal form and still ends in an asterisk. -/
theorem lib_star_normal (y : Str) (hy : isNormalizedStr y = true)
    (hstar : y.reverse.head? = some '*') :
    isNormalizedStr ((dropSpacesAfterAsterisks y.reverse).reverse) = true ∧
    (dropSpacesAfterAsterisks y.reverse).head? = some '*' := by
  obtain ⟨r2, hr⟩ : ∃ r2, y.reverse = '*' :: r2 := by
    cases hrev : y.reverse with
    | nil => rw [hrev] at hstar; exact absurd hstar (by simp)
    | cons a r2 =>
      rw [hrev] at hstar
      simp only [List.head?_cons, Option.some.injEq] at hstar
      exact ⟨r2, by rw [hstar]⟩
  have hdec := dropSpacesAfterAsterisks_decomp y.reverse
  constructor
  · rw [hdec, List.reverse_append]
    refine star_strip_normal y
      (y.reverse.takeWhile fun c => decide (c = '*') || decide (c = ' '))
      (y.reverse.dropWhile fun c => decide (c = '*') || decide (c = ' '))
      _ ?_ hy (fun c hc => by simpa using (List.mem_filter.mp hc).2) ?_
    · have h0 := List.takeWhile_append_dropWhile
        (p := fun c => decide (c = '*') || decide (c = ' ')) (l := y.reverse)
      have h2 := congrArg List.reverse h0
      rw [List.reverse_append, List.reverse_reverse] at h2
      exact h2.symm
    · have hmem : '*' ∈ (y.reverse.takeWhile
          fun c => decide (c = '*') || decide (c = ' ')).filter
            (fun c => decide (c = '*')) := by
        rw [hr]
        simp [List.takeWhile_cons, List.filter_cons]
      exact List.ne_nil_of_mem hmem
  · rw [hr, dropSpacesAfterAsterisks_star]
    rfl

/-- **C9.** Both normalization variants are idempotent: applying
`normalize_string` from `src/utils.rs` (the base variant) or from
`importer-lib/src/utils/string.rs` (the variant that removes spaces before
trailing asterisks) twice gives the same result as applying it once, for every
input string. -/
theorem dkan_importer_c9_normalization_idempotent (s : Str) :
    normalize_string_model (normalize_string_model s) = normalize_string_model s ∧
    normalize_string_lib (normalize_string_lib s) = normalize_string_lib s := by
  have hynorm := normalize_is_normal s
  constructor
  · exact normalize_fixed_of_normal _ hynorm
  · by_cases hstar : (normalize_string_model s).reverse.head? = some '*'
    · have hz := lib_star_normal _ hynorm hstar
      have hLs : normalize_string_lib s =
          (dropSpacesAfterAsterisks (normalize_string_model s).reverse).reverse := by
        unfold normalize_string_lib
        dsimp only
        rw [if_pos hstar]
      rw [hLs]
      unfold normalize_string_lib
      dsimp only
      rw [normalize_fixed_of_normal _ hz.1, List.reverse_reverse]
      rw [if_pos hz.2, dropSpacesAfterAsterisks_idem]
    · have hLs : normalize_string_lib s = normalize_string_model s := by
        unfold normalize_string_lib
        dsimp only
        rw [if_neg hstar]
      rw [hLs]
      unfold normalize_string_lib
      dsimp only
      rw [normalize_fixed_of_normal _ hynorm]
      rw [if_neg hstar]

end Importer
